import Mathlib

/-!
Verification model of the Steam-news Discord bot (bot.py, steam_api.py,
translator.py, config.py).  Python strings are modelled as `List Char`
(Python indexes and slices by code point, as `List Char` does), wall-clock
time as `ℚ`, and the dynamic news dictionaries as association lists.
Network effects (HTTP responses, image heuristics, message delivery) enter
as explicit parameters.
-/

set_option maxRecDepth 4000

namespace Config

/-- config.py line 22: maximum characters to translate (default environment). -/
def MAX_TRANSLATION_LENGTH : ℕ := 1500

/-- config.py line 23: maximum translations per minute (default environment;
the production override lowers it to 15, which none of the claims exercise). -/
def TRANSLATION_RATE_LIMIT : ℕ := 20

/-- config.py line 24: minimum seconds between translation requests. -/
def MIN_TRANSLATION_INTERVAL : ℚ := 1

/-- config.py line 18: maximum number of news items handled per request. -/
def MAX_NEWS_ITEMS : ℕ := 3

end Config

/-- Python whitespace characters in the ASCII range, the class used by
`str.split()` and `str.strip()` for the inputs this program handles. -/
def isPySpace (c : Char) : Bool :=
  c = ' ' || c = '\t' || c = '\n' || c = '\r' || c = '\x0b' || c = '\x0c'

/-- Helper for `pySplit`: accumulates the current word (reversed) while
scanning. -/
def pySplitAux : List Char → List Char → List (List Char)
  | [], acc => if acc = [] then [] else [acc.reverse]
  | c :: rest, acc =>
    if isPySpace c then
      if acc = [] then pySplitAux rest [] else acc.reverse :: pySplitAux rest []
    else pySplitAux rest (c :: acc)

/-- Python `text.split()`: split on runs of whitespace, dropping empty pieces. -/
def pySplit (l : List Char) : List (List Char) := pySplitAux l []

/-- Python `text.strip()`: drop leading and trailing whitespace. -/
def pyStrip (l : List Char) : List Char :=
  ((l.dropWhile isPySpace).reverse.dropWhile isPySpace).reverse

/-- Python `text.rstrip('. ')`: drop trailing `'.'` and `' '` characters. -/
def rstripDotSpace (l : List Char) : List Char :=
  (l.reverse.dropWhile (fun c => c = '.' || c = ' ')).reverse

/-- Python `text.replace(a, b)` for single characters `a`, `b`. -/
def replaceChar (a b : Char) (l : List Char) : List Char :=
  l.map (fun c => if c = a then b else c)

/-- Python `text.split('. ')`: split on the two-character separator,
scanning left to right, keeping empty pieces (translator.py line 118). -/
def splitDS : List Char → List (List Char)
  | '.' :: ' ' :: rest => [] :: splitDS rest
  | c :: rest =>
    match splitDS rest with
    | [] => [[c]]
    | p :: ps => (c :: p) :: ps
  | [] => [[]]

/-- translator.py lines 109-113 composed: `' '.join(text.split())` followed by
the (then vacuous) replacements of `'\n'`, `'\r'`, `'\t'` by spaces. -/
def normText (text : List Char) : List Char :=
  replaceChar '\t' ' ' (replaceChar '\r' ' '
    (replaceChar '\n' ' ' (List.intercalate [' '] (pySplit text))))

/-- translator.py lines 119-124: the sentence-accumulation loop.  `result`
grows by `sentence + '. '` while the cumulative length stays within
`Config.MAX_TRANSLATION_LENGTH`; the first failure breaks out of the loop. -/
def accumSentences : List Char → List (List Char) → List Char
  | result, [] => result
  | result, s :: ss =>
    if (result ++ s ++ ['.', ' ']).length ≤ Config.MAX_TRANSLATION_LENGTH then
      accumSentences (result ++ s ++ ['.', ' ']) ss
    else result

/-- translator.py lines 101-131, `_prepare_text_for_translation`: whitespace
normalisation, then, when the text exceeds the limit, truncation at a sentence
boundary (or a hard cut when no whole sentence fits), then `strip()`. -/
def prepare_text_for_translation (text : List Char) : List Char :=
  if text = [] then []
  else
    let t2 := normText text
    let t3 :=
      if Config.MAX_TRANSLATION_LENGTH < t2.length then
        let r := accumSentences [] (splitDS t2)
        if r ≠ [] then rstripDotSpace r else t2.take Config.MAX_TRANSLATION_LENGTH
      else t2
    pyStrip t3

/-- Translation-budget state (translator.py lines 18-20): last request
timestamp, request count in the current window, and window-start timestamp. -/
structure RLState where
  last : ℚ
  count : ℕ
  reset : ℚ
deriving DecidableEq

/-- translator.py lines 72-99, `_apply_rate_limit`, entered at wall-clock time
`t`.  `asyncio.sleep` is modelled as advancing the clock by exactly the
requested amount.  Returns the state after the trailing bookkeeping
(lines 98-99) together with the time at which the external call is issued. -/
def apply_rate_limit (s : RLState) (t : ℚ) : RLState × ℚ :=
  let s1 := if 60 ≤ t - s.reset then { s with count := 0, reset := t } else s
  let p2 : ℚ × RLState :=
    if Config.TRANSLATION_RATE_LIMIT ≤ s1.count then
      let wait := 60 - (t - s1.reset)
      if 0 < wait then (t + wait, { s1 with count := 0, reset := t + wait })
      else (t, s1)
    else (t, s1)
  let since := t - s.last
  let callT :=
    if since < Config.MIN_TRANSLATION_INTERVAL then
      p2.1 + (Config.MIN_TRANSLATION_INTERVAL - since)
    else p2.1
  ({ last := callT, count := p2.2.count + 1, reset := p2.2.reset }, callT)

/-- Call times of a sequence of sequential `translate_text` invocations: the
first enters the rate limiter at time `t`; after a call issued at time `c`,
the next invocation enters at `c + d` for the next gap `d` in the list. -/
def rlTrace (s : RLState) (t : ℚ) : List ℚ → List ℚ
  | [] => []
  | d :: ds =>
    let r := apply_rate_limit s t
    r.2 :: rlTrace r.1 (r.2 + d) ds

/-- As `rlTrace` but also recording the post-call budget state of each call. -/
def rlSteps (s : RLState) (t : ℚ) : List ℚ → List (RLState × ℚ)
  | [] => []
  | d :: ds =>
    let r := apply_rate_limit s t
    r :: rlSteps r.1 (r.2 + d) ds

/-- translator.py line 55: the degraded result returned when translation
fails. -/
def failMarker : List Char := "[Translation failed] ".toList

/-- Outcome of one `translate_text` call: the returned string, the budget
state afterwards, and the payloads sent to the external service. -/
structure TranslateResult where
  result : List Char
  state : RLState
  sent : List (List Char)
deriving DecidableEq

/-- translator.py lines 35-38: the payload handed to the external service —
the prepared text, re-truncated with an ellipsis in the (unreachable) case
that preparation left it over the limit. -/
def translatePayload (text : List Char) : List Char :=
  let clean := prepare_text_for_translation text
  if Config.MAX_TRANSLATION_LENGTH < clean.length then
    clean.take Config.MAX_TRANSLATION_LENGTH ++ ['.', '.', '.']
  else clean

/-- translator.py lines 22-55, `translate_text`.  The external Google
Translate call is the parameter `service`; `none` models it raising, in which
case the `except` branch returns the original text behind `failMarker`.
Empty or whitespace-only input returns early (line 27) before the rate
limiter runs.  The function is total: no exception escapes to the caller. -/
def translate_text (service : List Char → Option (List Char)) (s : RLState)
    (t : ℚ) (text : List Char) : TranslateResult :=
  if pyStrip text = [] then ⟨text, s, []⟩
  else
    let s2 := (apply_rate_limit s t).1
    let payload := translatePayload text
    match service payload with
    | some r => ⟨r, s2, [payload]⟩
    | none => ⟨failMarker ++ text, s2, [payload]⟩

/-- Positions `q` of the normalised text at which a sentence boundary
`". "` starts (`l[q] = '.'` and `l[q+1] = ' '`). -/
def boundaryPos (l : List Char) : List ℕ :=
  (List.range l.length).filter (fun q => decide ((l.drop q).take 2 = ['.', ' ']))

/-- The last sentence boundary whose sentence prefix (boundary included)
still fits within `Config.MAX_TRANSLATION_LENGTH`. -/
def lastFitBoundary (l : List Char) : ℕ :=
  ((boundaryPos l).filter
    (fun q => decide (q + 2 ≤ Config.MAX_TRANSLATION_LENGTH))).foldr max 0

/-- Pieces re-joined the way the accumulation loop does: every piece gets a
trailing `". "`. -/
def dsJoin : List (List Char) → List Char
  | [] => []
  | p :: ps => p ++ '.' :: ' ' :: dsJoin ps

/-- Scans for the first `'>'`, returning the remainder after it. -/
def afterGt : List Char → Option (List Char)
  | [] => none
  | '>' :: r => some r
  | _ :: r => afterGt r

/-- steam_api.py line 171, one match of the regex `<[^>]+>` starting right
after a `'<'`: at least one non-`'>'` character, then `'>'`.  Returns the
remainder after the closing `'>'`, or `none` when the regex does not match
at this `'<'`. -/
def dropThroughGt : List Char → Option (List Char)
  | [] => none
  | '>' :: _ => none
  | _ :: r => afterGt r

/-- `re.sub(r'<[^>]+>', '', text)`: remove non-overlapping tag matches,
scanning left to right.  The fuel argument (always at least the length of
the text) keeps the recursion structural; each step consumes at least one
input character, so the fuel never runs out on the wrapper's call. -/
def stripTagsFuel : ℕ → List Char → List Char
  | 0, l => l
  | _ + 1, [] => []
  | f + 1, c :: rest =>
    if c = '<' then
      match dropThroughGt rest with
      | some r => stripTagsFuel f r
      | none => '<' :: stripTagsFuel f rest
    else c :: stripTagsFuel f rest

/-- Tag removal with an adequate fuel budget. -/
def stripTags (l : List Char) : List Char := stripTagsFuel (l.length + 1) l

/-- Python `text.replace(pat, repl)` for a non-empty pattern: replace
non-overlapping occurrences left to right.  Fuelled as in `stripTagsFuel`. -/
def replaceSubFuel (pat repl : List Char) : ℕ → List Char → List Char
  | 0, l => l
  | _ + 1, [] => []
  | f + 1, c :: rest =>
    if (c :: rest).take pat.length = pat then
      repl ++ replaceSubFuel pat repl f ((c :: rest).drop pat.length)
    else c :: replaceSubFuel pat repl f rest

/-- Python `text.replace(pat, repl)` with an adequate fuel budget. -/
def replaceSub (pat repl : List Char) (l : List Char) : List Char :=
  replaceSubFuel pat repl (l.length + 1) l

/-- steam_api.py lines 174-184: the fixed entity-decoding table, applied in
the dictionary's insertion order. -/
def decodeEntities (l : List Char) : List Char :=
  replaceSub "&nbsp;".toList [' ']
    (replaceSub "&#39;".toList ['\'']
      (replaceSub "&quot;".toList ['"']
        (replaceSub "&gt;".toList ['>']
          (replaceSub "&lt;".toList ['<']
            (replaceSub "&amp;".toList ['&'] l)))))

/-- steam_api.py lines 160-189, `_clean_html`: tag stripping, entity
decoding, whitespace normalisation. -/
def clean_html (text : List Char) : List Char :=
  if text = [] then []
  else List.intercalate [' '] (pySplit (decodeEntities (stripTags text)))

/-- One raw news item as parsed from the feed's JSON, with the `.get`
defaults of steam_api.py lines 128-136 already applied.  The upstream item
carries a `gid` field (the source-assigned article identifier); the feed
client reads every other field but never copies `gid` into its output. -/
structure RawItem where
  gid : List Char
  title : List Char
  contents : List Char
  url : List Char
  author : List Char
  date : Int
  feedLabel : List Char
  feedName : List Char
  feedType : Int
  appid : Int
deriving DecidableEq

/-- Outcome of the HTTP query in steam_api.py lines 117-119: either the
request/parse raised (network error), or a response with a status code and —
for well-formed bodies — the parsed `appnews.newsitems` list (`none` models
a 200 body missing those keys, steam_api.py line 121). -/
inductive FetchResult where
  | fetchError : FetchResult
  | httpResponse (status : ℕ) (body : Option (List RawItem)) : FetchResult
deriving DecidableEq

/-- Values stored in the dynamic news dictionaries. -/
inductive FVal where
  | s (v : List Char) : FVal
  | i (v : Int) : FVal
deriving DecidableEq

/-- A Python dict, as the association list of its insertion order. -/
def Item : Type := List (String × FVal)

instance : DecidableEq Item := by unfold Item; infer_instance

/-- Python `d[key]` / `d.get(key)`: first binding of the key, if any. -/
def dictGet (it : Item) (k : String) : Option FVal :=
  (it.find? (fun p => p.1 == k)).map Prod.snd

/-- Python f-string interpolation of a dict value. -/
def fmtFVal : FVal → List Char
  | .s v => v
  | .i n => (toString n).toList

/-- steam_api.py lines 139-147: the best-effort illustration-image
heuristic — regex scans over the raw contents plus an optional network
fetch of the article page.  It is pure I/O-boundary behaviour ("any failure
yields no image, never an error", spec 4.1), so it enters the model as an
oracle from (raw contents, url) to an optional image URL. -/
def ImageOracle : Type := List Char → List Char → Option (List Char)

/-- steam_api.py lines 126-149: one processed news item.  Note the output
keys: `gid` is not among them. -/
def processNewsItem (resolveImage : ImageOracle) (raw : RawItem) : Item :=
  [("title", .s (clean_html raw.title)), ("contents", .s (clean_html raw.contents)),
   ("url", .s raw.url), ("author", .s raw.author), ("date", .i raw.date),
   ("feed_label", .s raw.feedLabel), ("feed_name", .s raw.feedName),
   ("feed_type", .i raw.feedType), ("appid", .i raw.appid)]
  ++ (match resolveImage raw.contents raw.url with
      | some v => if v = [] then [] else [("image", FVal.s v)]
      | none => [])

/-- steam_api.py lines 102-158, `get_game_news`: on a 200 response with the
expected keys, process each item; on any other status, a malformed body, or
a raised error, return the empty list. -/
def get_game_news (resolveImage : ImageOracle) (r : FetchResult) : List Item :=
  match r with
  | .fetchError => []
  | .httpResponse status body =>
    if status = 200 then
      match body with
      | some items => items.map (processNewsItem resolveImage)
      | none => []
    else []

/-- bot.py lines 503-512, `load_published_news`: the parsed ledger file, or
the empty set when the file is missing (`none`) or unreadable/corrupt
(`some none`). -/
def load_published_news (file : Option (Option (List (List Char)))) : List (List Char) :=
  match file with
  | some (some ids) => ids
  | some none => []
  | none => []

/-- The claim-relevant content of the embed sent at bot.py lines 562-567:
translated title, translated truncated body (with the ellipsis of line 564),
the article timestamp and the chosen illustration image. -/
structure Msg where
  title : List Char
  description : List Char
  timestamp : Int
  image : Option (List Char)
deriving DecidableEq

/-- bot.py lines 576-581: the embed's image — the item's own image when the
key is present and truthy, else the game header image when that is truthy. -/
def imageOf (header : Option (List Char)) (news : Item) : Option (List Char) :=
  let headerTruthy := match header with
    | some h => if h = [] then none else some h
    | none => none
  match dictGet news "image" with
  | some (.s v) => if v = [] then headerTruthy else some v
  | some (.i n) => if n = 0 then headerTruthy else some (toString n).toList
  | none => headerTruthy

/-- The field accesses of bot.py lines 558-602 that raise on a missing key
or on a value of the wrong shape: `title` and `contents` must be strings
(they are stripped/sliced), `date` an integer (`datetime.fromtimestamp`),
`url` merely present (only interpolated).  `author` is read with `.get` and
cannot raise. -/
def fieldsOf (x : Item) : Option (List Char × List Char × Int × FVal) :=
  match dictGet x "title", dictGet x "contents", dictGet x "date", dictGet x "url" with
  | some (.s t), some (.s c), some (.i d), some u => some (t, c, d, u)
  | _, _, _, _ => none

/-- The message built for one news item (bot.py lines 558-567): translated
title, translation of the first 600 characters of the body with a trailing
ellipsis when the body was longer, timestamp, image. -/
def msgOf (translate : List Char → List Char) (header : Option (List Char))
    (x : Item) : Msg :=
  match fieldsOf x with
  | some (t, c, d, _) =>
    { title := translate t
      description := translate (c.take 600) ++ (if 600 < c.length then ['.', '.', '.'] else [])
      timestamp := d
      image := imageOf header x }
  | none => { title := [], description := [], timestamp := 0, image := none }

/-- The identifier string `f"{news['gid']}"` of bot.py line 550 (empty when
the key is absent — in the code that case raises instead; `stepItem` models
the raise). -/
def gidStr (x : Item) : List Char :=
  match dictGet x "gid" with
  | some v => fmtFVal v
  | none => []

/-- Whether an item carries every key the loop body dereferences. -/
def wfItem (x : Item) : Bool :=
  (dictGet x "gid").isSome && (fieldsOf x).isSome

/-- State of one poll cycle: messages delivered so far, the in-memory
seen-set, the seen-set last written to disk (bot.py lines 514-520), and
whether an uncaught exception has aborted the cycle (the outer handler of
bot.py lines 630-631 — after it fires the rest of the loop is skipped but
all deliveries and commits already made stand). -/
structure CycleState where
  delivered : List Msg
  published : List (List Char)
  persisted : List (List Char)
  aborted : Bool
deriving DecidableEq

/-- bot.py lines 549-625, one iteration of the news loop.  Reading the
missing `gid` key (line 550) raises `KeyError`, aborting the cycle; a seen
identifier skips the item (line 552); otherwise the item is translated,
formatted and sent — on success its identifier is added to the seen-set and
persisted at once (lines 616-617), on a send failure (line 624) the failure
is logged and the loop moves on with nothing committed. -/
def stepItem (translate : List Char → List Char) (sendOk : Msg → Bool)
    (header : Option (List Char)) (st : CycleState) (news : Item) : CycleState :=
  if st.aborted then st
  else
    match dictGet news "gid" with
    | none => { st with aborted := true }
    | some g =>
      if fmtFVal g ∈ st.published then st
      else
        match fieldsOf news with
        | none => { st with aborted := true }
        | some _ =>
          let msg := msgOf translate header news
          if sendOk msg then
            { delivered := st.delivered ++ [msg],
              published := fmtFVal g :: st.published,
              persisted := fmtFVal g :: st.published,
              aborted := st.aborted }
          else st

/-- The `for news in news_items[:Config.MAX_NEWS_ITEMS]` loop. -/
def news_loop (translate : List Char → List Char) (sendOk : Msg → Bool)
    (header : Option (List Char)) : CycleState → List Item → CycleState
  | st, [] => st
  | st, news :: rest => news_loop translate sendOk header (stepItem translate sendOk header st news) rest

/-- bot.py lines 522-631, `auto_news_checker`, one poll cycle over an
already-fetched feed response: return immediately on an empty response
(line 540), otherwise run the loop over the first `MAX_NEWS_ITEMS` items
starting from the loaded seen-set `pub`.  The Translation Gate enters as the
function `translate` (its throttle state is modelled by `translate_text`
separately and does not influence ledger behaviour), message delivery as the
predicate `sendOk`, and the game header image as `header`. -/
def auto_news_checker (translate : List Char → List Char) (sendOk : Msg → Bool)
    (header : Option (List Char)) (pub : List (List Char)) (items : List Item) : CycleState :=
  if items = [] then ⟨[], pub, pub, false⟩
  else news_loop translate sendOk header ⟨[], pub, pub, false⟩ (items.take Config.MAX_NEWS_ITEMS)

/-- Per-call invariant of the annotated rate-limiter trace: the stored
last-request time is the call time, the call happens after the window
start, and the window counter is between 1 and the cap. -/
def EOK (e : RLState × ℚ) : Prop :=
  e.1.last = e.2 ∧ e.1.reset ≤ e.2 ∧ 1 ≤ e.1.count ∧
    e.1.count ≤ Config.TRANSLATION_RATE_LIMIT

/-- Relation between consecutive annotated calls: spacing of at least the
minimum interval, and the window either stays (counter increments) or
jumps forward by at least 60 seconds (counter restarts at 1, and the new
window starts no earlier than the previous call). -/
def StepRel (p q : RLState × ℚ) : Prop :=
  p.2 + Config.MIN_TRANSLATION_INTERVAL ≤ q.2 ∧
  ((q.1.reset = p.1.reset ∧ q.1.count = p.1.count + 1) ∨
   (p.1.reset + 60 ≤ q.1.reset ∧ q.1.count = 1 ∧ p.2 ≤ q.1.reset))

/-- The call times produced in the throttle counterexample: twenty calls at
seconds 40-59 (filling the fixed window opened at construction time 0),
then, after the cap forces a suspension to second 60 plus the minimum
interval, twenty more calls at seconds 61-80. -/
def ceCallTimes : List ℚ :=
  [40, 41, 42, 43, 44, 45, 46, 47, 48, 49, 50, 51, 52, 53, 54, 55, 56, 57, 58, 59,
   61, 62, 63, 64, 65, 66, 67, 68, 69, 70, 71, 72, 73, 74, 75, 76, 77, 78, 79, 80]


/-- A concrete well-formed news item (all keys the loop dereferences),
identifier "1". -/
def demoItemA : Item :=
  [("gid", FVal.s ['1']), ("title", FVal.s ['T', 'a']),
   ("contents", FVal.s ['B', 'a']), ("date", FVal.i 1), ("url", FVal.s ['u'])]

/-- A concrete item with identifier "2" (only the `gid` key is read for an
already-seen item). -/
def demoItemB : Item := [("gid", FVal.s ['2'])]

/-- A concrete well-formed news item, identifier "3". -/
def demoItemC : Item :=
  [("gid", FVal.s ['3']), ("title", FVal.s ['T', 'c']),
   ("contents", FVal.s ['B', 'c']), ("date", FVal.i 2), ("url", FVal.s ['u'])]


/-! ### Lemmas about the poll cycle -/

theorem stepItem_of_aborted (translate : List Char → List Char) (sendOk : Msg → Bool)
    (header : Option (List Char)) (st : CycleState) (news : Item)
    (h : st.aborted = true) : stepItem translate sendOk header st news = st := by
  simp [stepItem, h]

theorem news_loop_of_aborted (translate : List Char → List Char) (sendOk : Msg → Bool)
    (header : Option (List Char)) (l : List Item) (st : CycleState)
    (h : st.aborted = true) : news_loop translate sendOk header st l = st := by
  induction l with
  | nil => rfl
  | cons x rest ih => rw [news_loop, stepItem_of_aborted _ _ _ _ _ h, ih]

theorem stepItem_published_mono (translate : List Char → List Char) (sendOk : Msg → Bool)
    (header : Option (List Char)) (st : CycleState) (news : Item) :
    ∀ g ∈ st.published, g ∈ (stepItem translate sendOk header st news).published := by
  intro g hg
  unfold stepItem
  split
  · exact hg
  · split
    · exact hg
    · split
      · exact hg
      · split
        · exact hg
        · dsimp only
          split
          · exact List.mem_cons_of_mem _ hg
          · exact hg

theorem news_loop_published_mono (translate : List Char → List Char) (sendOk : Msg → Bool)
    (header : Option (List Char)) (l : List Item) (st : CycleState) :
    ∀ g ∈ st.published, g ∈ (news_loop translate sendOk header st l).published := by
  induction l generalizing st with
  | nil => intro g hg; exact hg
  | cons x rest ih =>
    intro g hg
    exact ih _ _ (stepItem_published_mono _ _ _ _ _ _ hg)

theorem stepItem_gid_none (translate : List Char → List Char) (sendOk : Msg → Bool)
    (header : Option (List Char)) (st : CycleState) (news : Item)
    (hb : st.aborted = false) (hg : dictGet news "gid" = none) :
    stepItem translate sendOk header st news = { st with aborted := true } := by
  simp [stepItem, hb, hg]

theorem stepItem_seen (translate : List Char → List Char) (sendOk : Msg → Bool)
    (header : Option (List Char)) (st : CycleState) (news : Item) (g : FVal)
    (hb : st.aborted = false) (hg : dictGet news "gid" = some g)
    (hm : fmtFVal g ∈ st.published) :
    stepItem translate sendOk header st news = st := by
  simp [stepItem, hb, hg, hm]

theorem stepItem_fields_none (translate : List Char → List Char) (sendOk : Msg → Bool)
    (header : Option (List Char)) (st : CycleState) (news : Item) (g : FVal)
    (hb : st.aborted = false) (hg : dictGet news "gid" = some g)
    (hm : fmtFVal g ∉ st.published) (hf : fieldsOf news = none) :
    stepItem translate sendOk header st news = { st with aborted := true } := by
  simp [stepItem, hb, hg, hm, hf]

theorem stepItem_send_ok (translate : List Char → List Char) (sendOk : Msg → Bool)
    (header : Option (List Char)) (st : CycleState) (news : Item) (g : FVal)
    (v : List Char × List Char × Int × FVal)
    (hb : st.aborted = false) (hg : dictGet news "gid" = some g)
    (hm : fmtFVal g ∉ st.published) (hf : fieldsOf news = some v)
    (hs : sendOk (msgOf translate header news) = true) :
    stepItem translate sendOk header st news =
      { delivered := st.delivered ++ [msgOf translate header news],
        published := fmtFVal g :: st.published,
        persisted := fmtFVal g :: st.published, aborted := st.aborted } := by
  simp [stepItem, hb, hg, hm, hf, hs]

theorem stepItem_send_fail (translate : List Char → List Char) (sendOk : Msg → Bool)
    (header : Option (List Char)) (st : CycleState) (news : Item) (g : FVal)
    (v : List Char × List Char × Int × FVal)
    (hb : st.aborted = false) (hg : dictGet news "gid" = some g)
    (hm : fmtFVal g ∉ st.published) (hf : fieldsOf news = some v)
    (hs : sendOk (msgOf translate header news) = false) :
    stepItem translate sendOk header st news = st := by
  simp [stepItem, hb, hg, hm, hf, hs]

theorem stepItem_shift (translate : List Char → List Char) (sendOk : Msg → Bool)
    (header : Option (List Char)) (d : List Msg) (p q : List (List Char)) (b : Bool)
    (news : Item) :
    stepItem translate sendOk header ⟨d, p, q, b⟩ news =
      ⟨d ++ (stepItem translate sendOk header ⟨[], p, q, b⟩ news).delivered,
       (stepItem translate sendOk header ⟨[], p, q, b⟩ news).published,
       (stepItem translate sendOk header ⟨[], p, q, b⟩ news).persisted,
       (stepItem translate sendOk header ⟨[], p, q, b⟩ news).aborted⟩ := by
  unfold stepItem
  split
  · simp_all
  · cases hg : dictGet news "gid" with
    | none => simp
    | some g =>
      simp only []
      split
      · simp
      · cases hf : fieldsOf news with
        | none => simp
        | some v =>
          simp only []
          split <;> simp

theorem news_loop_shift (translate : List Char → List Char) (sendOk : Msg → Bool)
    (header : Option (List Char)) (l : List Item) (d : List Msg)
    (p q : List (List Char)) (b : Bool) :
    news_loop translate sendOk header ⟨d, p, q, b⟩ l =
      ⟨d ++ (news_loop translate sendOk header ⟨[], p, q, b⟩ l).delivered,
       (news_loop translate sendOk header ⟨[], p, q, b⟩ l).published,
       (news_loop translate sendOk header ⟨[], p, q, b⟩ l).persisted,
       (news_loop translate sendOk header ⟨[], p, q, b⟩ l).aborted⟩ := by
  induction l generalizing d p q b with
  | nil => simp [news_loop]
  | cons x rest ih =>
    rw [news_loop, news_loop, stepItem_shift]
    rcases hs : stepItem translate sendOk header ⟨[], p, q, b⟩ x with ⟨d1, p1, q1, b1⟩
    rw [ih, ih d1]
    simp

theorem auto_news_checker_eq_loop (translate : List Char → List Char) (sendOk : Msg → Bool)
    (header : Option (List Char)) (pub : List (List Char)) (items : List Item) :
    auto_news_checker translate sendOk header pub items =
      news_loop translate sendOk header ⟨[], pub, pub, false⟩
        (items.take Config.MAX_NEWS_ITEMS) := by
  unfold auto_news_checker
  split
  · subst items; rfl
  · rfl

theorem stepItem_published_subset (translate : List Char → List Char) (sendOk : Msg → Bool)
    (header : Option (List Char)) (st : CycleState) (news : Item) :
    ∀ g ∈ (stepItem translate sendOk header st news).published,
      g ∈ st.published ∨ ∃ v, dictGet news "gid" = some v ∧ fmtFVal v = g := by
  intro g hg
  by_cases hb : st.aborted = true
  · rw [stepItem_of_aborted _ _ _ _ _ hb] at hg; exact Or.inl hg
  rw [Bool.not_eq_true] at hb
  rcases hgid : dictGet news "gid" with _ | gv
  · rw [stepItem_gid_none _ _ _ _ _ hb hgid] at hg; exact Or.inl hg
  by_cases hm : fmtFVal gv ∈ st.published
  · rw [stepItem_seen _ _ _ _ _ _ hb hgid hm] at hg; exact Or.inl hg
  rcases hf : fieldsOf news with _ | v
  · rw [stepItem_fields_none _ _ _ _ _ _ hb hgid hm hf] at hg; exact Or.inl hg
  by_cases hs : sendOk (msgOf translate header news) = true
  · rw [stepItem_send_ok _ _ _ _ _ _ _ hb hgid hm hf hs] at hg
    rcases List.mem_cons.mp hg with h | h
    · exact Or.inr ⟨gv, rfl, h.symm⟩
    · exact Or.inl h
  · rw [Bool.not_eq_true] at hs
    rw [stepItem_send_fail _ _ _ _ _ _ _ hb hgid hm hf hs] at hg
    exact Or.inl hg

theorem news_loop_published_subset (translate : List Char → List Char) (sendOk : Msg → Bool)
    (header : Option (List Char)) (l : List Item) (st : CycleState) :
    ∀ g ∈ (news_loop translate sendOk header st l).published,
      g ∈ st.published ∨ ∃ x ∈ l, ∃ v, dictGet x "gid" = some v ∧ fmtFVal v = g := by
  induction l generalizing st with
  | nil => intro g hg; exact Or.inl hg
  | cons x rest ih =>
    intro g hg
    rw [news_loop] at hg
    rcases ih _ g hg with h | ⟨y, hy, v, hv, he⟩
    · rcases stepItem_published_subset translate sendOk header st x g h with h2 | ⟨v, hv, he⟩
      · exact Or.inl h2
      · exact Or.inr ⟨x, List.mem_cons_self _ _, v, hv, he⟩
    · exact Or.inr ⟨y, List.mem_cons_of_mem _ hy, v, hv, he⟩

theorem stepItem_persisted_mono (translate : List Char → List Char) (sendOk : Msg → Bool)
    (header : Option (List Char)) (st : CycleState) (news : Item) (g : List Char)
    (hp : g ∈ st.published) (hq : g ∈ st.persisted) :
    g ∈ (stepItem translate sendOk header st news).published ∧
      g ∈ (stepItem translate sendOk header st news).persisted := by
  by_cases hb : st.aborted = true
  · rw [stepItem_of_aborted _ _ _ _ _ hb]; exact ⟨hp, hq⟩
  rw [Bool.not_eq_true] at hb
  rcases hgid : dictGet news "gid" with _ | gv
  · rw [stepItem_gid_none _ _ _ _ _ hb hgid]; exact ⟨hp, hq⟩
  by_cases hm : fmtFVal gv ∈ st.published
  · rw [stepItem_seen _ _ _ _ _ _ hb hgid hm]; exact ⟨hp, hq⟩
  rcases hf : fieldsOf news with _ | v
  · rw [stepItem_fields_none _ _ _ _ _ _ hb hgid hm hf]; exact ⟨hp, hq⟩
  by_cases hs : sendOk (msgOf translate header news) = true
  · rw [stepItem_send_ok _ _ _ _ _ _ _ hb hgid hm hf hs]
    exact ⟨List.mem_cons_of_mem _ hp, List.mem_cons_of_mem _ hp⟩
  · rw [Bool.not_eq_true] at hs
    rw [stepItem_send_fail _ _ _ _ _ _ _ hb hgid hm hf hs]
    exact ⟨hp, hq⟩

theorem news_loop_persisted_mono (translate : List Char → List Char) (sendOk : Msg → Bool)
    (header : Option (List Char)) (l : List Item) (st : CycleState) (g : List Char)
    (hp : g ∈ st.published) (hq : g ∈ st.persisted) :
    g ∈ (news_loop translate sendOk header st l).published ∧
      g ∈ (news_loop translate sendOk header st l).persisted := by
  induction l generalizing st with
  | nil => exact ⟨hp, hq⟩
  | cons x rest ih =>
    rw [news_loop]
    obtain ⟨h1, h2⟩ := stepItem_persisted_mono translate sendOk header st x g hp hq
    exact ih _ h1 h2

theorem stepItem_skip (translate : List Char → List Char) (sendOk : Msg → Bool)
    (header : Option (List Char)) (st : CycleState) (x : Item)
    (hw : wfItem x = true) (hs : sendOk (msgOf translate header x) = false) :
    stepItem translate sendOk header st x = st := by
  obtain ⟨hg, hf⟩ := Bool.and_eq_true_iff.mp hw
  obtain ⟨g, hg⟩ := Option.isSome_iff_exists.mp hg
  obtain ⟨v, hf⟩ := Option.isSome_iff_exists.mp hf
  by_cases hb : st.aborted = true
  · exact stepItem_of_aborted _ _ _ _ _ hb
  · rw [Bool.not_eq_true] at hb
    by_cases hm : fmtFVal g ∈ st.published
    · exact stepItem_seen _ _ _ _ _ _ hb hg hm
    · exact stepItem_send_fail _ _ _ _ _ _ v hb hg hm hf hs

theorem news_loop_skip_mid (translate : List Char → List Char) (sendOk : Msg → Bool)
    (header : Option (List Char)) (pre post : List Item) (x : Item) (st : CycleState)
    (hw : wfItem x = true) (hs : sendOk (msgOf translate header x) = false) :
    news_loop translate sendOk header st (pre ++ x :: post) =
      news_loop translate sendOk header st (pre ++ post) := by
  induction pre generalizing st with
  | nil => rw [List.nil_append, List.nil_append, news_loop, stepItem_skip _ _ _ _ _ hw hs]
  | cons y pre ih => rw [List.cons_append, List.cons_append, news_loop, news_loop, ih]

theorem news_loop_second_run (translate : List Char → List Char) (sendOk : Msg → Bool)
    (header : Option (List Char)) :
    ∀ (items : List Item) (s s2 : CycleState),
      s2.published = (news_loop translate sendOk header s items).published →
      s2.delivered = [] → s2.aborted = false → s.aborted = false →
      (∀ g ∈ s.published, g ∈ s2.published) →
      (news_loop translate sendOk header s2 items).delivered = [] := by
  intro items
  induction items with
  | nil => intro s s2 _ hdel _ _ _; exact hdel
  | cons x rest ih =>
    intro s s2 hpub hdel hab2 hab1 hsub
    rw [news_loop] at hpub ⊢
    rcases hg : dictGet x "gid" with _ | g
    · rw [stepItem_gid_none _ _ _ _ _ hab1 hg,
        news_loop_of_aborted _ _ _ _ _ rfl] at hpub
      rw [stepItem_gid_none _ _ _ _ _ hab2 hg, news_loop_of_aborted _ _ _ _ _ rfl]
      exact hdel
    · by_cases hm : fmtFVal g ∈ s.published
      · rw [stepItem_seen _ _ _ _ _ _ hab1 hg hm] at hpub
        rw [stepItem_seen _ _ _ _ _ _ hab2 hg (hsub _ hm)]
        exact ih s s2 hpub hdel hab2 hab1 hsub
      · rcases hf : fieldsOf x with _ | v
        · rw [stepItem_fields_none _ _ _ _ _ _ hab1 hg hm hf,
            news_loop_of_aborted _ _ _ _ _ rfl] at hpub
          have hm2 : fmtFVal g ∉ s2.published := by
            intro hc; rw [hpub] at hc; exact hm hc
          rw [stepItem_fields_none _ _ _ _ _ _ hab2 hg hm2 hf,
            news_loop_of_aborted _ _ _ _ _ rfl]
          exact hdel
        · by_cases hs : sendOk (msgOf translate header x) = true
          · rw [stepItem_send_ok _ _ _ _ _ _ _ hab1 hg hm hf hs] at hpub
            have hm2 : fmtFVal g ∈ s2.published := by
              rw [hpub]
              exact news_loop_published_mono _ _ _ _ _ _ (List.mem_cons_self _ _)
            rw [stepItem_seen _ _ _ _ _ _ hab2 hg hm2]
            refine ih _ s2 hpub hdel hab2 (by simpa using hab1) ?_
            intro g2 hg2
            rw [hpub]
            exact news_loop_published_mono _ _ _ _ _ _ hg2
          · rw [Bool.not_eq_true] at hs
            rw [stepItem_send_fail _ _ _ _ _ _ _ hab1 hg hm hf hs] at hpub
            by_cases hm2 : fmtFVal g ∈ s2.published
            · rw [stepItem_seen _ _ _ _ _ _ hab2 hg hm2]
              exact ih s s2 hpub hdel hab2 hab1 hsub
            · rw [stepItem_send_fail _ _ _ _ _ _ _ hab2 hg hm2 hf hs]
              exact ih s s2 hpub hdel hab2 hab1 hsub

theorem gidStr_of_some (x : Item) (g : FVal) (hg : dictGet x "gid" = some g) :
    gidStr x = fmtFVal g := by
  simp [gidStr, hg]

/-! ### Claim theorems -/

/-- Claim C7: the seen-set grows monotonically — every identifier in the
ledger before a poll cycle is still in the in-memory ledger and in the
persisted ledger after the cycle; no operation removes an identifier. -/
theorem C7_ledger_monotone (translate : List Char → List Char) (sendOk : Msg → Bool)
    (header : Option (List Char)) (pub : List (List Char)) (items : List Item) :
    ∀ g ∈ pub, g ∈ (auto_news_checker translate sendOk header pub items).published ∧
      g ∈ (auto_news_checker translate sendOk header pub items).persisted := by
  intro g hg
  rw [auto_news_checker_eq_loop]
  exact news_loop_persisted_mono translate sendOk header _ _ g hg hg

theorem C7_ledger_monotone_witness :
    "42".toList ∈ (auto_news_checker (fun l => l) (fun _ => true) none
        ["42".toList] []).published ∧
    "42".toList ∈ (auto_news_checker (fun l => l) (fun _ => true) none
        ["42".toList] []).persisted :=
  C7_ledger_monotone (fun l => l) (fun _ => true) none ["42".toList] [] "42".toList
    (by decide)

/-- Claim C8: a transient feed failure (non-success HTTP status, a
network/parse error, or a malformed body) makes `get_game_news` return the
empty sequence rather than raising, and the poll cycle on an empty
sequence ends with no side effects: nothing delivered, ledger (in memory
and on disk) unchanged, no abort. -/
theorem C8_fetch_failure_absorbed (resolveImage : ImageOracle) (status : ℕ)
    (body : Option (List RawItem)) (translate : List Char → List Char)
    (sendOk : Msg → Bool) (header : Option (List Char)) (pub : List (List Char))
    (h : status ≠ 200) :
    get_game_news resolveImage (FetchResult.httpResponse status body) = []
  ∧ get_game_news resolveImage FetchResult.fetchError = []
  ∧ auto_news_checker translate sendOk header pub [] = ⟨[], pub, pub, false⟩ := by
  refine ⟨by simp [get_game_news, h], rfl, rfl⟩

theorem C8_fetch_failure_absorbed_witness :
    get_game_news (fun _ _ => none) (FetchResult.httpResponse 503 none) = []
  ∧ get_game_news (fun _ _ => none) FetchResult.fetchError = []
  ∧ auto_news_checker (fun l => l) (fun _ => true) none ["42".toList] []
      = ⟨[], ["42".toList], ["42".toList], false⟩ :=
  C8_fetch_failure_absorbed (fun _ _ => none) 503 none (fun l => l) (fun _ => true)
    none ["42".toList] (by decide)

/-- Claim C9: for non-empty input, when the external translation call
fails, `translate_text` returns the original text prefixed with the
visible failure marker; being a total function of its inputs, it never
propagates an exception to its caller. -/
theorem C9_failure_returns_marked_original (service : List Char → Option (List Char))
    (s : RLState) (t : ℚ) (text : List Char) (h1 : pyStrip text ≠ [])
    (h2 : service (translatePayload text) = none) :
    (translate_text service s t text).result = failMarker ++ text := by
  simp [translate_text, h1, h2]

theorem C9_failure_returns_marked_original_witness :
    (translate_text (fun _ => none) ⟨0, 0, 0⟩ 0 ['H', 'i']).result =
      failMarker ++ ['H', 'i'] :=
  C9_failure_returns_marked_original (fun _ => none) ⟨0, 0, 0⟩ 0 ['H', 'i']
    (by decide) rfl

/-- Claim C10: empty or whitespace-only input is returned unchanged; no
payload is sent to the external service and the translation budget state
(request count, window start, last-request time) is untouched. -/
theorem C10_blank_input_no_effect (service : List Char → Option (List Char))
    (s : RLState) (t : ℚ) (text : List Char) (h : pyStrip text = []) :
    translate_text service s t text = ⟨text, s, []⟩ := by
  simp [translate_text, h]

theorem C10_blank_input_no_effect_witness :
    translate_text (fun p => some p) ⟨3, 7, 11⟩ 42 [' ', '\t'] =
      ⟨[' ', '\t'], ⟨3, 7, 11⟩, []⟩ :=
  C10_blank_input_no_effect (fun p => some p) ⟨3, 7, 11⟩ 42 [' ', '\t'] (by decide)

/-- Claim C1 (code bug): the end-to-end scenario.  The feed returns one
article with identifier "42", title "Big Update", a body and date
1700000000; the ledger is empty; the Translation Gate returns a fixed
French string.  The feed client omits `gid` from its processed items
(first conjunct), so the poll cycle's `news['gid']` lookup raises: the
cycle aborts having delivered nothing, and the ledger still lacks "42"
(second conjunct) — against the claimed one delivered message with "42"
marked seen. -/
theorem C1_cycle_drops_article :
    (get_game_news (fun _ _ => none)
        (FetchResult.httpResponse 200 (some [⟨"42".toList, "Big Update".toList,
          "The storm chasers are back with a big update.".toList,
          "https://store.steampowered.com/news/app/1107320".toList,
          "OUTBRK Team".toList, 1700000000, [], [], 0, 1107320⟩]))).map
        (fun it => dictGet it "gid") = [none]
  ∧ auto_news_checker (fun _ => "Grosse mise à jour".toList) (fun _ => true) none []
      (get_game_news (fun _ _ => none)
        (FetchResult.httpResponse 200 (some [⟨"42".toList, "Big Update".toList,
          "The storm chasers are back with a big update.".toList,
          "https://store.steampowered.com/news/app/1107320".toList,
          "OUTBRK Team".toList, 1700000000, [], [], 0, 1107320⟩])))
      = ⟨[], [], [], true⟩ := by
  exact ⟨by decide, by decide⟩

/-- Claim C5: for a feed response `[A, B, C]` where `A` and `C` are new
(and carry distinct identifiers plus the fields the loop reads) and `B` is
already in the ledger, the cycle delivers `A`'s message first and then
`C`'s, skipping `B`: source order is preserved among the new subset. -/
theorem C5_order_preserved (translate : List Char → List Char) (sendOk : Msg → Bool)
    (header : Option (List Char)) (pub : List (List Char)) (a b c : Item)
    (ga gb gc : FVal) (va vc : List Char × List Char × Int × FVal)
    (hga : dictGet a "gid" = some ga) (hfa : fieldsOf a = some va)
    (hgb : dictGet b "gid" = some gb)
    (hgc : dictGet c "gid" = some gc) (hfc : fieldsOf c = some vc)
    (hna : fmtFVal ga ∉ pub) (hsb : fmtFVal gb ∈ pub) (hnc : fmtFVal gc ∉ pub)
    (hne : fmtFVal gc ≠ fmtFVal ga)
    (hsa : sendOk (msgOf translate header a) = true)
    (hsc : sendOk (msgOf translate header c) = true) :
    (auto_news_checker translate sendOk header pub [a, b, c]).delivered
      = [msgOf translate header a, msgOf translate header c] := by
  have htake : List.take Config.MAX_NEWS_ITEMS [a, b, c] = [a, b, c] := rfl
  rw [auto_news_checker_eq_loop, htake]
  have h1 : stepItem translate sendOk header ⟨[], pub, pub, false⟩ a =
      ⟨[msgOf translate header a], fmtFVal ga :: pub, fmtFVal ga :: pub, false⟩ := by
    rw [stepItem_send_ok translate sendOk header _ a ga va rfl hga hna hfa hsa]
    simp
  have h2 : stepItem translate sendOk header
      ⟨[msgOf translate header a], fmtFVal ga :: pub, fmtFVal ga :: pub, false⟩ b =
      ⟨[msgOf translate header a], fmtFVal ga :: pub, fmtFVal ga :: pub, false⟩ :=
    stepItem_seen translate sendOk header _ b gb rfl hgb (List.mem_cons_of_mem _ hsb)
  have hnc2 : fmtFVal gc ∉ fmtFVal ga :: pub := by
    intro hc
    rcases List.mem_cons.mp hc with h | h
    · exact hne h
    · exact hnc h
  have h3 : stepItem translate sendOk header
      ⟨[msgOf translate header a], fmtFVal ga :: pub, fmtFVal ga :: pub, false⟩ c =
      ⟨[msgOf translate header a, msgOf translate header c],
        fmtFVal gc :: fmtFVal ga :: pub, fmtFVal gc :: fmtFVal ga :: pub, false⟩ := by
    rw [stepItem_send_ok translate sendOk header _ c gc vc rfl hgc hnc2 hfc hsc]
    simp
  rw [news_loop, h1, news_loop, h2, news_loop, h3, news_loop]

theorem C5_order_preserved_witness :
    (auto_news_checker (fun l => l) (fun _ => true) none [['2']]
        [demoItemA, demoItemB, demoItemC]).delivered
      = [msgOf (fun l => l) none demoItemA, msgOf (fun l => l) none demoItemC] :=
  C5_order_preserved (fun l => l) (fun _ => true) none [['2']]
    demoItemA demoItemB demoItemC (FVal.s ['1']) (FVal.s ['2']) (FVal.s ['3'])
    (['T', 'a'], ['B', 'a'], 1, FVal.s ['u']) (['T', 'c'], ['B', 'c'], 2, FVal.s ['u'])
    (by decide) (by decide) (by decide) (by decide) (by decide) (by decide)
    (by decide) (by decide) (by decide) rfl rfl

/-- Claim C4: per-article commit and failure isolation.  First conjunct: a
cycle in which article `x`'s send fails behaves exactly as the same cycle
without `x` — the failure blocks neither later articles nor earlier
commits.  Second conjunct: the failed article's identifier is not marked
seen.  Third conjunct: a successful delivery commits (and persists) the
article's identifier immediately, before any later article is processed —
the rest of the cycle runs from a ledger already containing it. -/
theorem C4_commit_per_article (translate : List Char → List Char) (sendOk : Msg → Bool)
    (header : Option (List Char)) (pub : List (List Char)) :
    (∀ (pre post : List Item) (x : Item),
      (pre ++ x :: post).length ≤ Config.MAX_NEWS_ITEMS → wfItem x = true →
      sendOk (msgOf translate header x) = false →
      auto_news_checker translate sendOk header pub (pre ++ x :: post)
        = auto_news_checker translate sendOk header pub (pre ++ post))
  ∧ (∀ (pre post : List Item) (x : Item),
      (pre ++ x :: post).length ≤ Config.MAX_NEWS_ITEMS → wfItem x = true →
      sendOk (msgOf translate header x) = false →
      gidStr x ∉ pub →
      (∀ y ∈ pre ++ post, ∀ v, dictGet y "gid" = some v → fmtFVal v ≠ gidStr x) →
      gidStr x ∉ (auto_news_checker translate sendOk header pub
        (pre ++ x :: post)).published)
  ∧ (∀ (rest : List Item) (x : Item),
      (x :: rest).length ≤ Config.MAX_NEWS_ITEMS → wfItem x = true →
      gidStr x ∉ pub → sendOk (msgOf translate header x) = true →
      auto_news_checker translate sendOk header pub (x :: rest)
        = ⟨msgOf translate header x ::
             (auto_news_checker translate sendOk header (gidStr x :: pub) rest).delivered,
           (auto_news_checker translate sendOk header (gidStr x :: pub) rest).published,
           (auto_news_checker translate sendOk header (gidStr x :: pub) rest).persisted,
           (auto_news_checker translate sendOk header (gidStr x :: pub) rest).aborted⟩) := by
  have key : ∀ (pre post : List Item) (x : Item),
      (pre ++ x :: post).length ≤ Config.MAX_NEWS_ITEMS → wfItem x = true →
      sendOk (msgOf translate header x) = false →
      auto_news_checker translate sendOk header pub (pre ++ x :: post)
        = auto_news_checker translate sendOk header pub (pre ++ post) := by
    intro pre post x hlen hw hs
    have hlen2 : (pre ++ post).length ≤ Config.MAX_NEWS_ITEMS := by
      simp only [List.length_append, List.length_cons] at hlen ⊢
      omega
    rw [auto_news_checker_eq_loop, auto_news_checker_eq_loop,
      List.take_of_length_le hlen, List.take_of_length_le hlen2,
      news_loop_skip_mid translate sendOk header pre post x _ hw hs]
  refine ⟨key, ?_, ?_⟩
  · intro pre post x hlen hw hs hnp hother hmem
    rw [key pre post x hlen hw hs, auto_news_checker_eq_loop] at hmem
    rcases news_loop_published_subset translate sendOk header _ _ _ hmem with h | ⟨y, hy, v, hv, he⟩
    · exact hnp h
    · exact hother y (List.take_subset _ _ hy) v hv he
  · intro rest x hlen hw hnp hs
    obtain ⟨hg1, hf1⟩ := Bool.and_eq_true_iff.mp hw
    obtain ⟨g, hg⟩ := Option.isSome_iff_exists.mp hg1
    obtain ⟨v, hf⟩ := Option.isSome_iff_exists.mp hf1
    rw [gidStr_of_some x g hg] at hnp ⊢
    have hlen2 : rest.length ≤ Config.MAX_NEWS_ITEMS := by
      simp only [List.length_cons] at hlen
      omega
    rw [auto_news_checker_eq_loop, auto_news_checker_eq_loop,
      List.take_of_length_le hlen, List.take_of_length_le hlen2,
      news_loop, stepItem_send_ok translate sendOk header _ x g v rfl hg hnp hf hs]
    simp only [List.nil_append]
    rw [news_loop_shift translate sendOk header rest [msgOf translate header x]
      (fmtFVal g :: pub) (fmtFVal g :: pub) false]
    simp

theorem C4_commit_per_article_witness :
    (auto_news_checker (fun l => l) (fun _ => false) none [] ([] ++ demoItemA :: [])
        = auto_news_checker (fun l => l) (fun _ => false) none [] ([] ++ []))
  ∧ gidStr demoItemA ∉ (auto_news_checker (fun l => l) (fun _ => false) none []
      ([] ++ demoItemA :: [])).published
  ∧ auto_news_checker (fun l => l) (fun _ => true) none [] (demoItemA :: [])
      = ⟨msgOf (fun l => l) none demoItemA ::
           (auto_news_checker (fun l => l) (fun _ => true) none
             (gidStr demoItemA :: []) []).delivered,
         (auto_news_checker (fun l => l) (fun _ => true) none
           (gidStr demoItemA :: []) []).published,
         (auto_news_checker (fun l => l) (fun _ => true) none
           (gidStr demoItemA :: []) []).persisted,
         (auto_news_checker (fun l => l) (fun _ => true) none
           (gidStr demoItemA :: []) []).aborted⟩ :=
  ⟨(C4_commit_per_article (fun l => l) (fun _ => false) none []).1 [] [] demoItemA
      (by decide) (by decide) rfl,
   (C4_commit_per_article (fun l => l) (fun _ => false) none []).2.1 [] [] demoItemA
      (by decide) (by decide) rfl (by decide) (by intro y hy; cases hy),
   (C4_commit_per_article (fun l => l) (fun _ => true) none []).2.2 [] demoItemA
      (by decide) (by decide) (by decide) rfl⟩

/-- Claim C6: idempotence — processing the same feed response in a second
consecutive cycle, with the ledger carrying exactly the first cycle's
commits, delivers nothing. -/
theorem C6_second_cycle_delivers_nothing (translate : List Char → List Char)
    (sendOk : Msg → Bool) (header : Option (List Char)) (pub : List (List Char))
    (items : List Item) :
    (auto_news_checker translate sendOk header
        ((auto_news_checker translate sendOk header pub items).published)
        items).delivered = [] := by
  simp only [auto_news_checker_eq_loop]
  exact news_loop_second_run translate sendOk header _ ⟨[], pub, pub, false⟩ _
    rfl rfl rfl rfl
    (fun g hg => news_loop_published_mono translate sendOk header _ _ g hg)

/-! ### Lemmas for the truncation law -/

theorem splitDS_ne_nil (l : List Char) : splitDS l ≠ [] := by
  induction l using splitDS.induct with
  | case1 rest ih => simp [splitDS]
  | case2 c rest hnb heq => simp [splitDS, heq]
  | case3 c rest hnb p ps heq ih => simp [splitDS, heq]
  | case4 => simp [splitDS]

theorem splitDS_cons_eq (c : Char) (rest : List Char)
    (hnb : ∀ r, c = '.' → rest = ' ' :: r → False) :
    splitDS (c :: rest) = match splitDS rest with
      | [] => [[c]]
      | p :: ps => (c :: p) :: ps := by
  conv_lhs => rw [splitDS.eq_def]
  split
  · rename_i r h
    injection h with h1 h2
    exact absurd h2 (fun h2 => hnb r h1 h2)
  · rename_i c2 rest2 h
    injection h with h1 h2
    subst h1 h2
    rfl
  · rename_i h
    cases h

theorem intercalate_cons_ne (sep p : List Char) (ps : List (List Char)) (h : ps ≠ []) :
    List.intercalate sep (p :: ps) = p ++ sep ++ List.intercalate sep ps := by
  cases ps with
  | nil => simp at h
  | cons y ys => simp [List.intercalate, List.intersperse]

theorem intercalate_cons_head (sep : List Char) (c : Char) (p : List Char)
    (ps : List (List Char)) :
    List.intercalate sep ((c :: p) :: ps) = c :: List.intercalate sep (p :: ps) := by
  cases ps with
  | nil => simp [List.intercalate, List.intersperse]
  | cons y ys =>
    rw [intercalate_cons_ne sep (c :: p) (y :: ys) (by simp),
      intercalate_cons_ne sep p (y :: ys) (by simp)]
    simp

theorem splitDS_join (l : List Char) :
    List.intercalate ['.', ' '] (splitDS l) = l := by
  induction l using splitDS.induct with
  | case1 rest ih =>
    rw [splitDS, intercalate_cons_ne _ _ _ (splitDS_ne_nil rest), ih]
    rfl
  | case2 c rest hnb heq => exact absurd heq (splitDS_ne_nil rest)
  | case3 c rest hnb p ps heq ih =>
    rw [splitDS_cons_eq c rest hnb, heq, intercalate_cons_head]
    rw [heq] at ih
    rw [ih]
  | case4 => simp [splitDS, List.intercalate]

theorem headI_le_boundary (l : List Char) :
    ∀ q : ℕ, (l.drop q).take 2 = ['.', ' '] → (splitDS l).headI.length ≤ q := by
  induction l using splitDS.induct with
  | case1 rest ih =>
    intro q _
    simp [splitDS]
  | case2 c rest hnb heq => exact absurd heq (splitDS_ne_nil rest)
  | case3 c rest hnb p ps heq ih =>
    intro q hq
    rw [splitDS_cons_eq c rest hnb, heq]
    cases q with
    | zero =>
      exfalso
      rw [List.drop_zero] at hq
      cases rest with
      | nil => simp at hq
      | cons r0 rs =>
        simp only [List.take_succ_cons, List.take_zero] at hq
        injection hq with h1 h2
        injection h2 with h2 _
        exact hnb rs h1 (by rw [h2])
    | succ q =>
      have := ih q (by simpa using hq)
      rw [heq] at this
      simpa using Nat.succ_le_succ this
  | case4 =>
    intro q hq
    simp at hq

theorem accumSentences_length (ss : List (List Char)) :
    ∀ r : List Char, r.length ≤ Config.MAX_TRANSLATION_LENGTH →
      (accumSentences r ss).length ≤ Config.MAX_TRANSLATION_LENGTH := by
  induction ss with
  | nil => intro r h; exact h
  | cons s ss ih =>
    intro r h
    rw [accumSentences]
    split
    · rename_i hfit
      exact ih _ hfit
    · exact h

theorem accum_spec (ss : List (List Char)) :
    ∀ r : List Char, ∃ k, k ≤ ss.length ∧
      accumSentences r ss = r ++ dsJoin (ss.take k) := by
  induction ss with
  | nil => intro r; exact ⟨0, by simp, by simp [accumSentences, dsJoin]⟩
  | cons s ss ih =>
    intro r
    rw [accumSentences]
    split
    · obtain ⟨k, hk, he⟩ := ih (r ++ s ++ ['.', ' '])
      refine ⟨k + 1, by simpa using hk, ?_⟩
      rw [he]
      simp [dsJoin]
    · exact ⟨0, by simp, by simp [dsJoin]⟩

theorem accum_ne (ss : List (List Char)) (r : List Char) (h : r ≠ []) :
    accumSentences r ss ≠ [] := by
  obtain ⟨k, _, he⟩ := accum_spec ss r
  rw [he]
  simp [h]

theorem dsJoin_eq (ps : List (List Char)) (h : ps ≠ []) :
    dsJoin ps = List.intercalate ['.', ' '] ps ++ ['.', ' '] := by
  induction ps with
  | nil => simp at h
  | cons p ps ih =>
    cases ps with
    | nil => simp [dsJoin, List.intercalate, List.intersperse]
    | cons y ys =>
      rw [dsJoin, ih (by simp), intercalate_cons_ne ['.', ' '] p (y :: ys) (by simp)]
      simp

theorem inter_take_drop (ps : List (List Char)) :
    ∀ k, k < ps.length →
      List.intercalate ['.', ' '] ps =
        dsJoin (ps.take k) ++ List.intercalate ['.', ' '] (ps.drop k) := by
  induction ps with
  | nil => intro k hk; simp at hk
  | cons p ps ih =>
    intro k hk
    cases k with
    | zero => simp [dsJoin]
    | succ k =>
      have hps : ps ≠ [] := by
        intro h
        rw [h] at hk
        simp at hk
      rw [intercalate_cons_ne _ _ _ hps, List.take_succ_cons, List.drop_succ_cons]
      rw [dsJoin, ih k (by simpa using hk)]
      simp

theorem foldr_max_le (l : List ℕ) (a : ℕ) (h : a ∈ l) : a ≤ l.foldr max 0 := by
  induction l with
  | nil => cases h
  | cons x xs ih =>
    rcases List.mem_cons.mp h with h | h
    · subst h; exact le_max_left _ _
    · exact le_trans (ih h) (le_max_right _ _)

theorem rstrip_take (l : List Char) :
    ∃ m, rstripDotSpace l = l.take m ∧ m ≤ l.length := by
  have hd : l.reverse.takeWhile (fun c => c = '.' || c = ' ') ++
      l.reverse.dropWhile (fun c => c = '.' || c = ' ') = l.reverse :=
    List.takeWhile_append_dropWhile _ _
  have hsplit : l = rstripDotSpace l ++
      (l.reverse.takeWhile (fun c => c = '.' || c = ' ')).reverse := by
    rw [rstripDotSpace]
    conv_lhs => rw [← l.reverse_reverse, ← hd]
    rw [List.reverse_append]
  refine ⟨(rstripDotSpace l).length, ?_, ?_⟩
  · nth_rewrite 3 [hsplit]
    rw [List.take_left]
  · rw [rstripDotSpace]
    simpa using (List.dropWhile_sublist _).length_le.trans (by simp)

theorem rstrip_append_boundary (w : List Char) :
    (rstripDotSpace (w ++ ['.', ' '])).length ≤ w.length := by
  rw [rstripDotSpace]
  have h1 : (w ++ ['.', ' ']).reverse = ' ' :: '.' :: w.reverse := by simp
  rw [h1]
  have h2 : List.dropWhile (fun c => c = '.' || c = ' ') (' ' :: '.' :: w.reverse) =
      List.dropWhile (fun c => c = '.' || c = ' ') w.reverse := by
    rw [List.dropWhile_cons_of_pos (by simp), List.dropWhile_cons_of_pos (by simp)]
  rw [h2]
  simpa using (List.dropWhile_sublist _).length_le.trans (by simp)

theorem accum_structure (n : List Char)
    (h1 : Config.MAX_TRANSLATION_LENGTH < n.length)
    (hne : accumSentences [] (splitDS n) ≠ []) :
    ∃ q m, q ∈ boundaryPos n ∧ q + 2 ≤ Config.MAX_TRANSLATION_LENGTH ∧
      m ≤ q ∧ rstripDotSpace (accumSentences [] (splitDS n)) = n.take m := by
  obtain ⟨k, hk, he⟩ := accum_spec (splitDS n) []
  rw [List.nil_append] at he
  have hk1 : 1 ≤ k := by
    rcases Nat.eq_zero_or_pos k with h | h
    · subst h
      rw [List.take_zero] at he
      exact absurd he (by simpa [dsJoin] using hne)
    · exact h
  have hklt : k < (splitDS n).length := by
    rcases lt_or_eq_of_le hk with h | h
    · exact h
    · exfalso
      rw [h, List.take_length] at he
      rw [dsJoin_eq _ (splitDS_ne_nil n), splitDS_join] at he
      have hle := accumSentences_length (splitDS n) [] (Nat.zero_le _)
      rw [he] at hle
      simp only [List.length_append, List.length_cons, List.length_nil] at hle
      omega
  have htk : (splitDS n).take k ≠ [] := by
    rw [Ne, List.take_eq_nil_iff]
    push_neg
    exact ⟨by omega, splitDS_ne_nil n⟩
  have hjoin : n = dsJoin ((splitDS n).take k) ++
      List.intercalate ['.', ' '] ((splitDS n).drop k) := by
    conv_lhs => rw [← splitDS_join n]
    exact inter_take_drop _ k hklt
  have hr : accumSentences [] (splitDS n) =
      List.intercalate ['.', ' '] ((splitDS n).take k) ++ ['.', ' '] := by
    rw [he, dsJoin_eq _ htk]
  have hn : n = (List.intercalate ['.', ' '] ((splitDS n).take k) ++ ['.', ' ']) ++
      List.intercalate ['.', ' '] ((splitDS n).drop k) := by
    rw [← dsJoin_eq _ htk]
    exact hjoin
  set w := List.intercalate ['.', ' '] ((splitDS n).take k) with hw
  have hlen_r : w.length + 2 ≤ Config.MAX_TRANSLATION_LENGTH := by
    have hle := accumSentences_length (splitDS n) [] (Nat.zero_le _)
    rw [hr] at hle
    simpa using hle
  have hq_lt : w.length < n.length := by
    rw [hn]
    simp only [List.length_append, List.length_cons, List.length_nil]
    omega
  have hbd : (n.drop w.length).take 2 = ['.', ' '] := by
    rw [hn, List.append_assoc, List.drop_left]
    rfl
  have hqmem : w.length ∈ boundaryPos n := by
    simp only [boundaryPos, List.mem_filter, List.mem_range]
    exact ⟨hq_lt, by simp [hbd]⟩
  obtain ⟨m, hm_eq, hm_le⟩ := rstrip_take (accumSentences [] (splitDS n))
  have hmlen : m = (rstripDotSpace (accumSentences [] (splitDS n))).length := by
    rw [hm_eq, List.length_take]
    omega
  have hm_w : m ≤ w.length := by
    rw [hmlen]
    conv_lhs => rw [hr]
    exact rstrip_append_boundary w
  have htake_r : accumSentences [] (splitDS n) = n.take (w.length + 2) := by
    rw [hr]
    conv_rhs => rw [hn]
    have : w.length + 2 = (w ++ ['.', ' ']).length := by simp
    rw [this, List.take_left]
  refine ⟨w.length, m, hqmem, hlen_r, hm_w, ?_⟩
  rw [hm_eq, htake_r, List.take_take, min_eq_left (by omega)]

theorem accum_nonempty_of_boundary (n : List Char)
    (h2 : ∃ q ∈ boundaryPos n, q + 2 ≤ Config.MAX_TRANSLATION_LENGTH) :
    accumSentences [] (splitDS n) ≠ [] := by
  obtain ⟨q, hq, hfit⟩ := h2
  have hbd : (n.drop q).take 2 = ['.', ' '] := by
    exact (by simpa [boundaryPos, List.mem_filter, List.mem_range] using hq :
      q < n.length ∧ (n.drop q).take 2 = ['.', ' ']).2
  have hh := headI_le_boundary n q hbd
  obtain ⟨s1, ss, hsplit⟩ : ∃ s1 ss, splitDS n = s1 :: ss := by
    cases h : splitDS n with
    | nil => exact absurd h (splitDS_ne_nil n)
    | cons a b => exact ⟨a, b, rfl⟩
  rw [hsplit] at hh ⊢
  simp only [List.headI] at hh
  rw [accumSentences, if_pos (by simp; omega)]
  exact accum_ne _ _ (by simp)

theorem dropWhile_head_not (p : Char → Bool) (l : List Char) (c : Char)
    (rest : List Char) (h : l.dropWhile p = c :: rest) : p c = false := by
  induction l with
  | nil => simp at h
  | cons x xs ih =>
    rw [List.dropWhile_cons] at h
    split at h
    · exact ih h
    · rename_i hx
      injection h with h1 _
      subst h1
      simpa using hx

theorem pyStrip_eq_self (l : List Char)
    (hh : ∀ c rest2, l = c :: rest2 → isPySpace c = false)
    (hl : ∀ c rest2, l.reverse = c :: rest2 → isPySpace c = false) :
    pyStrip l = l := by
  rw [pyStrip]
  have h1 : l.dropWhile isPySpace = l := by
    cases hc : l with
    | nil => simp
    | cons c r => rw [List.dropWhile_cons_of_neg (by simp [hh c r hc])]
  rw [h1]
  have h2 : l.reverse.dropWhile isPySpace = l.reverse := by
    cases hc : l.reverse with
    | nil => simp
    | cons c r => rw [List.dropWhile_cons_of_neg (by simp [hl c r hc])]
  rw [h2, List.reverse_reverse]

theorem pySplitAux_words (l : List Char) :
    ∀ acc : List Char, (∀ ch ∈ acc, isPySpace ch = false) →
      ∀ w ∈ pySplitAux l acc, w ≠ [] ∧ ∀ ch ∈ w, isPySpace ch = false := by
  induction l with
  | nil =>
    intro acc hacc w hw
    rw [pySplitAux] at hw
    split at hw
    · cases hw
    · rename_i hacc_ne
      rcases List.mem_singleton.mp hw with rfl
      refine ⟨by simpa using hacc_ne, ?_⟩
      intro ch hch
      exact hacc ch (List.mem_reverse.mp hch)
  | cons c rest ih =>
    intro acc hacc w hw
    rw [pySplitAux] at hw
    split at hw
    · split at hw
      · exact ih [] (by simp) w hw
      · rename_i hacc_ne
        rcases List.mem_cons.mp hw with rfl | hw2
        · refine ⟨by simpa using hacc_ne, ?_⟩
          intro ch hch
          exact hacc ch (List.mem_reverse.mp hch)
        · exact ih [] (by simp) w hw2
    · rename_i hc
      refine ih (c :: acc) ?_ w hw
      intro ch hch
      rcases List.mem_cons.mp hch with rfl | hch2
      · simpa using hc
      · exact hacc ch hch2

theorem pySplit_words (l : List Char) :
    ∀ w ∈ pySplit l, w ≠ [] ∧ ∀ ch ∈ w, isPySpace ch = false :=
  pySplitAux_words l [] (by simp)

theorem mem_intercalate_space (ws : List (List Char)) (ch : Char) :
    ch ∈ List.intercalate [' '] ws → (∃ w ∈ ws, ch ∈ w) ∨ ch = ' ' := by
  induction ws with
  | nil => intro h; simp [List.intercalate] at h
  | cons w ws ih =>
    intro h
    cases ws with
    | nil =>
      simp only [List.intercalate, List.intersperse] at h
      exact Or.inl ⟨w, by simp, by simpa using h⟩
    | cons y ys =>
      rw [intercalate_cons_ne _ _ _ (by simp)] at h
      rcases List.mem_append.mp h with h2 | h2
      · rcases List.mem_append.mp h2 with h3 | h3
        · exact Or.inl ⟨w, by simp, h3⟩
        · exact Or.inr (List.mem_singleton.mp h3)
      · rcases ih h2 with ⟨w2, hw2, hch⟩ | h3
        · exact Or.inl ⟨w2, List.mem_cons_of_mem _ hw2, hch⟩
        · exact Or.inr h3

theorem replace_keep (c : Char) (a : Char) (h : isPySpace c = true → c = ' ') :
    isPySpace ((if c = a then ' ' else c) : Char) = true →
      (if c = a then ' ' else c) = ' ' := by
  split
  · intro _; rfl
  · exact h

theorem normText_chars (text : List Char) :
    ∀ ch ∈ normText text, isPySpace ch = true → ch = ' ' := by
  intro ch hch
  unfold normText at hch
  simp only [replaceChar, List.mem_map] at hch
  obtain ⟨c2, ⟨c1, ⟨c0, hc0, rfl⟩, rfl⟩, rfl⟩ := hch
  have base : isPySpace c0 = true → c0 = ' ' := by
    rcases mem_intercalate_space _ _ hc0 with ⟨w, hw, hcw⟩ | rfl
    · intro hws
      exact absurd hws (by simp [(pySplit_words text w hw).2 c0 hcw])
    · intro _; rfl
  exact replace_keep _ _ (replace_keep _ _ (replace_keep _ _ base))

theorem normText_head (text : List Char) (c : Char) (rest : List Char)
    (h : normText text = c :: rest) : isPySpace c = false := by
  unfold normText at h
  rcases hws : pySplit text with _ | ⟨w, ws⟩
  · rw [hws] at h
    simp [List.intercalate, replaceChar] at h
  · obtain ⟨hwne, hwch⟩ := pySplit_words text w (by rw [hws]; exact List.mem_cons_self _ _)
    rcases hw : w with _ | ⟨c0, w'⟩
    · exact absurd hw hwne
    · rw [hws, hw, intercalate_cons_head] at h
      simp only [replaceChar, List.map_cons] at h
      injection h with h1 _
      have hc0 : isPySpace c0 = false := hwch c0 (by rw [hw]; exact List.mem_cons_self _ _)
      rw [← h1]
      have hn : c0 ≠ '\n' := by intro hc; rw [hc] at hc0; simp [isPySpace] at hc0
      have hr : c0 ≠ '\r' := by intro hc; rw [hc] at hc0; simp [isPySpace] at hc0
      have ht : c0 ≠ '\t' := by intro hc; rw [hc] at hc0; simp [isPySpace] at hc0
      simp [hn, hr, ht, hc0]

theorem dropWhile_length_le (p : Char → Bool) (m : List Char) :
    (m.dropWhile p).length ≤ m.length :=
  (List.dropWhile_sublist _).length_le

theorem pyStrip_length_le (l : List Char) : (pyStrip l).length ≤ l.length := by
  rw [pyStrip]
  calc (((l.dropWhile isPySpace).reverse.dropWhile isPySpace).reverse).length
      = ((l.dropWhile isPySpace).reverse.dropWhile isPySpace).length := by simp
    _ ≤ (l.dropWhile isPySpace).reverse.length := dropWhile_length_le _ _
    _ = (l.dropWhile isPySpace).length := by simp
    _ ≤ l.length := dropWhile_length_le _ _

theorem rstrip_length_le (l : List Char) : (rstripDotSpace l).length ≤ l.length := by
  rw [rstripDotSpace]
  calc ((l.reverse.dropWhile (fun c => c = '.' || c = ' ')).reverse).length
      = (l.reverse.dropWhile (fun c => c = '.' || c = ' ')).length := by simp
    _ ≤ l.reverse.length := dropWhile_length_le _ _
    _ = l.length := by simp

theorem prepare_length_le (text : List Char) :
    (prepare_text_for_translation text).length ≤ Config.MAX_TRANSLATION_LENGTH := by
  rw [prepare_text_for_translation]
  split
  · simp
  · simp only []
    split
    · split
      · refine le_trans (pyStrip_length_le _) ?_
        refine le_trans (rstrip_length_le _) ?_
        exact accumSentences_length _ [] (Nat.zero_le _)
      · refine le_trans (pyStrip_length_le _) ?_
        exact List.length_take_le _ _
    · rename_i hlt
      exact le_trans (pyStrip_length_le _) (Nat.not_lt.mp hlt)

theorem translatePayload_eq_prepare (text : List Char) :
    translatePayload text = prepare_text_for_translation text := by
  have h := Nat.not_lt.mpr (prepare_length_le text)
  simp [translatePayload, h]

theorem sent_mem (service : List Char → Option (List Char)) (s : RLState) (t : ℚ)
    (text : List Char) (p : List Char)
    (hp : p ∈ (translate_text service s t text).sent) : p = translatePayload text := by
  unfold translate_text at hp
  split at hp
  · cases hp
  · simp only [] at hp
    rcases hsv : service (translatePayload text) with _ | r <;>
      rw [hsv] at hp <;> simpa using hp

theorem text_ne_of_norm (text : List Char)
    (h1 : Config.MAX_TRANSLATION_LENGTH < (normText text).length) : text ≠ [] := by
  intro h
  subst h
  have : normText [] = [] := rfl
  rw [this] at h1
  simp [Config.MAX_TRANSLATION_LENGTH] at h1

theorem prepare_big_accum (text : List Char) (htext : text ≠ [])
    (h1 : Config.MAX_TRANSLATION_LENGTH < (normText text).length)
    (hne : accumSentences [] (splitDS (normText text)) ≠ []) :
    prepare_text_for_translation text =
      pyStrip (rstripDotSpace (accumSentences [] (splitDS (normText text)))) := by
  rw [prepare_text_for_translation, if_neg htext]
  simp only []
  rw [if_pos h1, if_pos hne]

theorem prepare_big_noaccum (text : List Char) (htext : text ≠ [])
    (h1 : Config.MAX_TRANSLATION_LENGTH < (normText text).length)
    (he : accumSentences [] (splitDS (normText text)) = []) :
    prepare_text_for_translation text =
      pyStrip ((normText text).take Config.MAX_TRANSLATION_LENGTH) := by
  rw [prepare_text_for_translation, if_neg htext]
  simp only []
  rw [if_pos h1, if_neg (by simp [he])]

theorem take_cons_head (n : List Char) (m : ℕ) (c : Char) (r2 : List Char)
    (h : n.take m = c :: r2) : ∃ n2, n = c :: n2 := by
  cases n with
  | nil => simp at h
  | cons c0 n' =>
    cases m with
    | zero => simp at h
    | succ m =>
      rw [List.take_succ_cons] at h
      injection h with h1 _
      exact ⟨n', by rw [h1]⟩

theorem pyStrip_take_norm (text : List Char) (m : ℕ)
    (hlast : ∀ c r2, ((normText text).take m).reverse = c :: r2 →
      (c = '.' || c = ' ') = false) :
    pyStrip ((normText text).take m) = (normText text).take m := by
  refine pyStrip_eq_self _ ?_ ?_
  · intro c r2 hc
    obtain ⟨n2, hn2⟩ := take_cons_head _ _ _ _ hc
    exact normText_head text c n2 hn2
  · intro c r2 hc
    have hpds := hlast c r2 hc
    have hcmem : c ∈ normText text := by
      have : c ∈ ((normText text).take m).reverse := by rw [hc]; exact List.mem_cons_self _ _
      exact List.take_subset _ _ (List.mem_reverse.mp this)
    by_cases hws : isPySpace c = true
    · have := normText_chars text c hcmem hws
      subst this
      simp at hpds
    · simpa using hws

/-- Claim C3 (amended): (1) every payload `translate_text` sends to the
external service has length at most `Config.MAX_TRANSLATION_LENGTH`;
(2) when the whitespace-normalised text exceeds the limit and contains a
sentence boundary `". "` whose sentence prefix fits within the limit, the
payload is a prefix of the normalised text ending at or before the last
such boundary; (3) when no whole sentence fits, the payload is the first
`MAX_TRANSLATION_LENGTH` characters of the normalised text with
surrounding whitespace stripped — which can be shorter than the limit, so
"exactly the first L characters" from the original claim fails (see the
counterexample). -/
theorem C3_truncation_amended (service : List Char → Option (List Char)) (s : RLState)
    (t : ℚ) (text : List Char) :
    (∀ p ∈ (translate_text service s t text).sent,
      p.length ≤ Config.MAX_TRANSLATION_LENGTH)
  ∧ (∀ p ∈ (translate_text service s t text).sent,
      Config.MAX_TRANSLATION_LENGTH < (normText text).length →
      (∃ q ∈ boundaryPos (normText text), q + 2 ≤ Config.MAX_TRANSLATION_LENGTH) →
      ∃ m, m ≤ lastFitBoundary (normText text) ∧ p = (normText text).take m)
  ∧ (∀ p ∈ (translate_text service s t text).sent,
      Config.MAX_TRANSLATION_LENGTH < (normText text).length →
      (¬ ∃ q ∈ boundaryPos (normText text), q + 2 ≤ Config.MAX_TRANSLATION_LENGTH) →
      p = pyStrip ((normText text).take Config.MAX_TRANSLATION_LENGTH)) := by
  refine ⟨?_, ?_, ?_⟩
  · intro p hp
    rw [sent_mem service s t text p hp, translatePayload_eq_prepare]
    exact prepare_length_le text
  · intro p hp h1 h2
    have hne := accum_nonempty_of_boundary (normText text) h2
    have htext := text_ne_of_norm text h1
    obtain ⟨q, m, hqmem, hfit, hmq, hrs⟩ := accum_structure (normText text) h1 hne
    have hp2 : p = pyStrip ((normText text).take m) := by
      rw [sent_mem service s t text p hp, translatePayload_eq_prepare,
        prepare_big_accum text htext h1 hne, hrs]
    have hlast : ∀ c r2, ((normText text).take m).reverse = c :: r2 →
        (c = '.' || c = ' ') = false := by
      intro c r2 hc
      rw [← hrs, rstripDotSpace, List.reverse_reverse] at hc
      exact dropWhile_head_not _ _ _ _ hc
    refine ⟨m, ?_, by rw [hp2, pyStrip_take_norm text m hlast]⟩
    exact le_trans hmq
      (foldr_max_le _ _ (List.mem_filter.mpr ⟨hqmem, by simpa using hfit⟩))
  · intro p hp h1 h3
    have htext := text_ne_of_norm text h1
    by_cases hacc : accumSentences [] (splitDS (normText text)) = []
    · rw [sent_mem service s t text p hp, translatePayload_eq_prepare,
        prepare_big_noaccum text htext h1 hacc]
    · exfalso
      obtain ⟨q, m, hqmem, hfit, _, _⟩ := accum_structure (normText text) h1 hacc
      exact h3 ⟨q, hqmem, hfit⟩

theorem pySplitAux_word (w : List Char) (hwc : ∀ ch ∈ w, isPySpace ch = false) :
    ∀ (l acc : List Char), pySplitAux (w ++ l) acc = pySplitAux l (w.reverse ++ acc) := by
  induction w with
  | nil => intro l acc; simp
  | cons c w' ih =>
    intro l acc
    have hc : isPySpace c = false := hwc c (List.mem_cons_self _ _)
    rw [List.cons_append, pySplitAux, if_neg (by simp [hc])]
    rw [ih (fun ch hch => hwc ch (List.mem_cons_of_mem _ hch)) l (c :: acc)]
    rw [List.reverse_cons, List.append_assoc]
    rfl

theorem pySplit_word_space_word (w v : List Char) (hw : w ≠ []) (hv : v ≠ [])
    (hwc : ∀ ch ∈ w, isPySpace ch = false) (hvc : ∀ ch ∈ v, isPySpace ch = false) :
    pySplit (w ++ ' ' :: v) = [w, v] := by
  rw [pySplit, pySplitAux_word w hwc _ [], List.append_nil, pySplitAux,
    if_pos (by simp [isPySpace]), if_neg (by simp [hw]), List.reverse_reverse]
  congr 1
  have h2 := pySplitAux_word v hvc [] []
  rw [List.append_nil, List.append_nil] at h2
  rw [h2, pySplitAux, if_neg (by simp [hv]), List.reverse_reverse]

theorem replaceChar_eq_self (a b : Char) (l : List Char) (h : ∀ ch ∈ l, ch ≠ a) :
    replaceChar a b l = l := by
  rw [replaceChar]
  induction l with
  | nil => rfl
  | cons c r ih =>
    rw [List.map_cons, if_neg (h c (List.mem_cons_self _ _)),
      ih (fun ch hch => h ch (List.mem_cons_of_mem _ hch))]

theorem normText_word_space_word (w v : List Char) (hw : w ≠ []) (hv : v ≠ [])
    (hwc : ∀ ch ∈ w, isPySpace ch = false) (hvc : ∀ ch ∈ v, isPySpace ch = false) :
    normText (w ++ ' ' :: v) = w ++ ' ' :: v := by
  have hne : ∀ (a : Char), isPySpace a = true → a ≠ ' ' →
      ∀ ch ∈ w ++ ' ' :: v, ch ≠ a := by
    intro a ha hsp ch hch hc
    subst hc
    rcases List.mem_append.mp hch with h | h
    · rw [hwc ch h] at ha
      cases ha
    · rcases List.mem_cons.mp h with h2 | h2
      · exact hsp h2
      · rw [hvc ch h2] at ha
        cases ha
  rw [normText, pySplit_word_space_word w v hw hv hwc hvc,
    intercalate_cons_ne [' '] w [v] (by simp)]
  have h1 : List.intercalate [' '] [v] = v := by
    simp [List.intercalate, List.intersperse]
  rw [h1]
  have hx : w ++ [' '] ++ v = w ++ ' ' :: v := by simp
  rw [hx,
    replaceChar_eq_self '\n' ' ' _ (hne '\n' (by decide) (by decide)),
    replaceChar_eq_self '\r' ' ' _ (hne '\r' (by decide) (by decide)),
    replaceChar_eq_self '\t' ' ' _ (hne '\t' (by decide) (by decide))]

theorem sent_of_ne (service : List Char → Option (List Char)) (s : RLState) (t : ℚ)
    (text : List Char) (h : pyStrip text ≠ []) :
    (translate_text service s t text).sent = [translatePayload text] := by
  unfold translate_text
  rw [if_neg h]
  simp only []
  rcases service (translatePayload text) with _ | r <;> rfl

theorem repl_nonspace (c : Char) (hc : isPySpace c = false) (k : ℕ) :
    ∀ ch ∈ List.replicate k c, isPySpace ch = false := by
  intro ch h
  rw [List.eq_of_mem_replicate h]
  exact hc

theorem repl_a_cons : List.replicate 1499 'a' = 'a' :: List.replicate 1498 'a' := by
  rw [show (1499 : ℕ) = 1498 + 1 by norm_num, List.replicate_succ]

theorem repl_b_cons : List.replicate 300 'b' = 'b' :: List.replicate 299 'b' := by
  rw [show (300 : ℕ) = 299 + 1 by norm_num, List.replicate_succ]

theorem repl_a_ne : List.replicate 1499 'a' ≠ [] := by
  rw [repl_a_cons]
  exact List.cons_ne_nil _ _

theorem repl_b_ne : List.replicate 300 'b' ≠ [] := by
  rw [repl_b_cons]
  exact List.cons_ne_nil _ _

theorem reverse_wsw (w v : List Char) :
    (w ++ ' ' :: v).reverse = v.reverse ++ ' ' :: w.reverse := by
  rw [List.reverse_append, List.reverse_cons]
  simp [List.append_assoc]

theorem ce3_norm :
    normText (List.replicate 1499 'a' ++ ' ' :: List.replicate 300 'b') =
      List.replicate 1499 'a' ++ ' ' :: List.replicate 300 'b' :=
  normText_word_space_word _ _ repl_a_ne repl_b_ne
    (repl_nonspace 'a' (by decide) 1499) (repl_nonspace 'b' (by decide) 300)

theorem ce3_len : Config.MAX_TRANSLATION_LENGTH <
    (normText (List.replicate 1499 'a' ++ ' ' :: List.replicate 300 'b')).length := by
  rw [ce3_norm, List.length_append, List.length_replicate, List.length_cons,
    List.length_replicate]
  norm_num [Config.MAX_TRANSLATION_LENGTH]

theorem ce3_nob : ¬ ∃ q ∈ boundaryPos
      (normText (List.replicate 1499 'a' ++ ' ' :: List.replicate 300 'b')),
    q + 2 ≤ Config.MAX_TRANSLATION_LENGTH := by
  rw [ce3_norm]
  rintro ⟨q, hq, _⟩
  have hpred := (List.mem_filter.mp hq).2
  have hbd : (((List.replicate 1499 'a' ++ ' ' :: List.replicate (300:ℕ) 'b').drop q).take 2)
      = ['.', ' '] := of_decide_eq_true hpred
  have hdot : '.' ∈ (List.replicate 1499 'a' ++ ' ' :: List.replicate (300:ℕ) 'b') := by
    refine List.drop_subset q _ (List.take_subset 2 _ ?_)
    rw [hbd]
    exact List.mem_cons_self _ _
  rcases List.mem_append.mp hdot with h | h
  · exact absurd (List.eq_of_mem_replicate h) (by decide)
  · rcases List.mem_cons.mp h with h2 | h2
    · exact absurd h2 (by decide)
    · exact absurd (List.eq_of_mem_replicate h2) (by decide)

theorem ce3_haccum :
    accumSentences [] (splitDS
      (normText (List.replicate 1499 'a' ++ ' ' :: List.replicate 300 'b'))) = [] := by
  by_contra h
  obtain ⟨q, m, hqmem, hfit, _, _⟩ := accum_structure _ ce3_len h
  exact ce3_nob ⟨q, hqmem, hfit⟩

theorem ce3_take :
    (normText (List.replicate 1499 'a' ++ ' ' :: List.replicate 300 'b')).take
      Config.MAX_TRANSLATION_LENGTH = List.replicate 1499 'a' ++ [' '] := by
  rw [ce3_norm, List.take_append_eq_append_take,
    List.take_of_length_le (le_of_eq_of_le (List.length_replicate _ _)
      (by norm_num [Config.MAX_TRANSLATION_LENGTH]))]
  have h1 : Config.MAX_TRANSLATION_LENGTH - (List.replicate 1499 'a').length = 1 := by
    rw [List.length_replicate]
    norm_num [Config.MAX_TRANSLATION_LENGTH]
  rw [h1, List.take_succ_cons, List.take_zero]

theorem ce3_pystrip :
    pyStrip (List.replicate 1499 'a' ++ [' ']) = List.replicate 1499 'a' := by
  rw [pyStrip]
  have h1 : (List.replicate 1499 'a' ++ [' ']).dropWhile isPySpace =
      List.replicate 1499 'a' ++ [' '] := by
    rw [repl_a_cons, List.cons_append, List.dropWhile_cons_of_neg (by decide)]
  rw [h1]
  have h2 : (List.replicate 1499 'a' ++ [' ']).reverse =
      ' ' :: List.replicate 1499 'a' := by
    rw [List.reverse_append, List.reverse_replicate]
    rfl
  rw [h2, List.dropWhile_cons_of_pos (by decide)]
  have h3 : (List.replicate 1499 'a').dropWhile isPySpace = List.replicate 1499 'a' := by
    rw [repl_a_cons, List.dropWhile_cons_of_neg (by decide)]
  rw [h3, List.reverse_replicate]

theorem ce3_payload :
    translatePayload (List.replicate 1499 'a' ++ ' ' :: List.replicate 300 'b') =
      List.replicate 1499 'a' := by
  rw [translatePayload_eq_prepare,
    prepare_big_noaccum _ (text_ne_of_norm _ ce3_len) ce3_len ce3_haccum,
    ce3_take, ce3_pystrip]

theorem ce3_stripT_ne :
    pyStrip (List.replicate 1499 'a' ++ ' ' :: List.replicate 300 'b') ≠ [] := by
  have heq : pyStrip (List.replicate 1499 'a' ++ ' ' :: List.replicate 300 'b') =
      List.replicate 1499 'a' ++ ' ' :: List.replicate 300 'b' := by
    refine pyStrip_eq_self _ ?_ ?_
    · intro c r2 hc
      rw [repl_a_cons, List.cons_append] at hc
      injection hc with h1 _
      rw [← h1]
      decide
    · intro c r2 hc
      rw [reverse_wsw, List.reverse_replicate, List.reverse_replicate,
        repl_b_cons, List.cons_append] at hc
      injection hc with h1 _
      rw [← h1]
      decide
  rw [heq, repl_a_cons, List.cons_append]
  exact List.cons_ne_nil _ _

/-- Claim C3 counterexample: for the input of 1499 `'a'`s, a space, and 300
`'b'`s, the text exceeds the 1500-character limit and contains no sentence
boundary, so no whole sentence fits — the claim then demands a payload of
exactly the first 1500 characters, but the code's trailing `strip()`
removes the space that the cut exposes and sends 1499 characters. -/
theorem C3_counterexample :
    (translate_text (fun _ => none) ⟨0, 0, 0⟩ 0
        (List.replicate 1499 'a' ++ ' ' :: List.replicate 300 'b')).sent
      = [List.replicate 1499 'a']
  ∧ Config.MAX_TRANSLATION_LENGTH <
      (normText (List.replicate 1499 'a' ++ ' ' :: List.replicate 300 'b')).length
  ∧ (¬ ∃ q ∈ boundaryPos
        (normText (List.replicate 1499 'a' ++ ' ' :: List.replicate 300 'b')),
      q + 2 ≤ Config.MAX_TRANSLATION_LENGTH)
  ∧ (List.replicate 1499 'a').length ≠ Config.MAX_TRANSLATION_LENGTH := by
  refine ⟨?_, ce3_len, ce3_nob, ?_⟩
  · rw [sent_of_ne _ _ _ _ ce3_stripT_ne, ce3_payload]
  · rw [List.length_replicate]
    norm_num [Config.MAX_TRANSLATION_LENGTH]

theorem repl_b1600_cons : List.replicate 1600 'b' = 'b' :: List.replicate 1599 'b' := by
  rw [show (1600 : ℕ) = 1599 + 1 by norm_num, List.replicate_succ]

theorem repl_b1600_ne : List.replicate 1600 'b' ≠ [] := by
  rw [repl_b1600_cons]
  exact List.cons_ne_nil _ _

theorem wA_norm : normText (['A', '.'] ++ ' ' :: List.replicate 1600 'b') =
    ['A', '.'] ++ ' ' :: List.replicate 1600 'b' :=
  normText_word_space_word _ _ (List.cons_ne_nil _ _) repl_b1600_ne
    (by intro ch hch; rcases List.mem_cons.mp hch with rfl | hch2
        · rfl
        · rcases List.mem_cons.mp hch2 with rfl | hch3
          · rfl
          · cases hch3)
    (repl_nonspace 'b' (by decide) 1600)

theorem wA_len : Config.MAX_TRANSLATION_LENGTH <
    (normText (['A', '.'] ++ ' ' :: List.replicate 1600 'b')).length := by
  rw [wA_norm]
  simp only [List.length_append, List.length_cons, List.length_replicate, List.length_nil]
  norm_num [Config.MAX_TRANSLATION_LENGTH]

theorem wA_strip_ne : pyStrip (['A', '.'] ++ ' ' :: List.replicate 1600 'b') ≠ [] := by
  have heq : pyStrip (['A', '.'] ++ ' ' :: List.replicate 1600 'b') =
      ['A', '.'] ++ ' ' :: List.replicate 1600 'b' := by
    refine pyStrip_eq_self _ ?_ ?_
    · intro c r2 hc
      rw [show (['A', '.'] : List Char) ++ ' ' :: List.replicate 1600 'b' =
        'A' :: '.' :: ' ' :: List.replicate 1600 'b' from rfl] at hc
      injection hc with h1 _
      rw [← h1]
      decide
    · intro c r2 hc
      rw [reverse_wsw, List.reverse_replicate, repl_b1600_cons, List.cons_append] at hc
      injection hc with h1 _
      rw [← h1]
      decide
  rw [heq]
  exact List.cons_ne_nil _ _

theorem wA_mem : translatePayload (['A', '.'] ++ ' ' :: List.replicate 1600 'b') ∈
    (translate_text (fun _ => none) ⟨0, 0, 0⟩ 0
      (['A', '.'] ++ ' ' :: List.replicate 1600 'b')).sent := by
  rw [sent_of_ne _ _ _ _ wA_strip_ne]
  exact List.mem_cons_self _ _

theorem wA_bnd : ∃ q ∈ boundaryPos (normText (['A', '.'] ++ ' ' :: List.replicate 1600 'b')),
    q + 2 ≤ Config.MAX_TRANSLATION_LENGTH := by
  refine ⟨1, ?_, by norm_num [Config.MAX_TRANSLATION_LENGTH]⟩
  rw [wA_norm]
  refine List.mem_filter.mpr ⟨List.mem_range.mpr ?_, ?_⟩
  · simp only [List.length_append, List.length_cons, List.length_replicate, List.length_nil]
    norm_num
  · exact decide_eq_true rfl

theorem ce3_mem : translatePayload (List.replicate 1499 'a' ++ ' ' :: List.replicate 300 'b') ∈
    (translate_text (fun _ => none) ⟨0, 0, 0⟩ 0
      (List.replicate 1499 'a' ++ ' ' :: List.replicate 300 'b')).sent := by
  rw [sent_of_ne _ _ _ _ ce3_stripT_ne]
  exact List.mem_cons_self _ _

theorem C3_truncation_amended_witness :
    (translatePayload (['A', '.'] ++ ' ' :: List.replicate 1600 'b')).length
        ≤ Config.MAX_TRANSLATION_LENGTH
  ∧ (∃ m, m ≤ lastFitBoundary (normText (['A', '.'] ++ ' ' :: List.replicate 1600 'b')) ∧
      translatePayload (['A', '.'] ++ ' ' :: List.replicate 1600 'b') =
        (normText (['A', '.'] ++ ' ' :: List.replicate 1600 'b')).take m)
  ∧ translatePayload (List.replicate 1499 'a' ++ ' ' :: List.replicate 300 'b') =
      pyStrip ((normText (List.replicate 1499 'a' ++ ' ' :: List.replicate 300 'b')).take
        Config.MAX_TRANSLATION_LENGTH) :=
  ⟨(C3_truncation_amended (fun _ => none) ⟨0, 0, 0⟩ 0 _).1 _ wA_mem,
   (C3_truncation_amended (fun _ => none) ⟨0, 0, 0⟩ 0 _).2.1 _ wA_mem wA_len wA_bnd,
   (C3_truncation_amended (fun _ => none) ⟨0, 0, 0⟩ 0 _).2.2 _ ce3_mem ce3_len ce3_nob⟩

/-! ### Lemmas for the translation throttle -/

theorem apply_rate_limit_spec (s : RLState) (t : ℚ) (h : s.reset ≤ t) :
    (apply_rate_limit s t).1.last = (apply_rate_limit s t).2
  ∧ s.last + Config.MIN_TRANSLATION_INTERVAL ≤ (apply_rate_limit s t).2
  ∧ t ≤ (apply_rate_limit s t).2
  ∧ (apply_rate_limit s t).1.reset ≤ (apply_rate_limit s t).2
  ∧ 1 ≤ (apply_rate_limit s t).1.count
  ∧ (apply_rate_limit s t).1.count ≤ Config.TRANSLATION_RATE_LIMIT
  ∧ (((apply_rate_limit s t).1.reset = s.reset ∧
        (apply_rate_limit s t).1.count = s.count + 1)
     ∨ (s.reset + 60 ≤ (apply_rate_limit s t).1.reset ∧
        (apply_rate_limit s t).1.count = 1 ∧ t ≤ (apply_rate_limit s t).1.reset)) := by
  unfold apply_rate_limit
  simp only [Config.MIN_TRANSLATION_INTERVAL, Config.TRANSLATION_RATE_LIMIT]
  by_cases h79 : (60 : ℚ) ≤ t - s.reset
  · rw [if_pos h79, if_neg (by norm_num :
      ¬ ((20:ℕ) ≤ ({ s with count := 0, reset := t } : RLState).count))]
    by_cases hsp : t - s.last < 1
    · rw [if_pos hsp]
      dsimp only
      exact ⟨trivial, by linarith, by linarith, by linarith, by norm_num, by norm_num,
        Or.inr ⟨by linarith, rfl, by linarith⟩⟩
    · rw [if_neg hsp]
      dsimp only
      exact ⟨trivial, by linarith, by linarith, by linarith, by norm_num, by norm_num,
        Or.inr ⟨by linarith, rfl, by linarith⟩⟩
  · rw [if_neg h79]
    by_cases hcap : 20 ≤ s.count
    · rw [if_pos hcap, if_pos (by linarith : (0 : ℚ) < 60 - (t - s.reset))]
      by_cases hsp : t - s.last < 1
      · rw [if_pos hsp]
        dsimp only
        exact ⟨trivial, by linarith, by linarith, by linarith, by norm_num, by norm_num,
          Or.inr ⟨by linarith, rfl, by linarith⟩⟩
      · rw [if_neg hsp]
        dsimp only
        exact ⟨trivial, by linarith, by linarith, by linarith, by norm_num, by norm_num,
          Or.inr ⟨by linarith, rfl, by linarith⟩⟩
    · rw [if_neg hcap]
      by_cases hsp : t - s.last < 1
      · rw [if_pos hsp]
        dsimp only
        exact ⟨trivial, by linarith, by linarith, by linarith, by omega, by omega,
          Or.inl ⟨rfl, rfl⟩⟩
      · rw [if_neg hsp]
        dsimp only
        exact ⟨trivial, by linarith, by linarith, by linarith, by omega, by omega,
          Or.inl ⟨rfl, rfl⟩⟩

theorem rlSteps_spec (ds : List ℚ) : ∀ (s : RLState) (t : ℚ), s.reset ≤ t →
    (∀ d ∈ ds, 0 ≤ d) →
    (∀ e ∈ rlSteps s t ds, EOK e)
  ∧ List.Chain' StepRel (rlSteps s t ds)
  ∧ (∀ e, (rlSteps s t ds).head? = some e →
      s.last + Config.MIN_TRANSLATION_INTERVAL ≤ e.2 ∧
      ((e.1.reset = s.reset ∧ e.1.count = s.count + 1) ∨
       (s.reset + 60 ≤ e.1.reset ∧ e.1.count = 1 ∧ t ≤ e.1.reset))) := by
  induction ds with
  | nil =>
    intro s t _ _
    refine ⟨?_, ?_, ?_⟩
    · intro e he
      cases he
    · exact List.chain'_nil
    · intro e he
      cases he
  | cons d ds ih =>
    intro s t hres hds
    obtain ⟨hlast, hmin, ht, hrr, hc1, hcN, hdisj⟩ := apply_rate_limit_spec s t hres
    have hd0 : (0 : ℚ) ≤ d := hds d (List.mem_cons_self _ _)
    have hres2 : (apply_rate_limit s t).1.reset ≤ (apply_rate_limit s t).2 + d := by
      linarith
    obtain ⟨hE, hchain, hhead⟩ := ih (apply_rate_limit s t).1 ((apply_rate_limit s t).2 + d)
      hres2 (fun x hx => hds x (List.mem_cons_of_mem _ hx))
    have hsteps : rlSteps s t (d :: ds) =
        apply_rate_limit s t ::
          rlSteps (apply_rate_limit s t).1 ((apply_rate_limit s t).2 + d) ds := rfl
    refine ⟨?_, ?_, ?_⟩
    · intro e he
      rw [hsteps] at he
      rcases List.mem_cons.mp he with rfl | he2
      · exact ⟨hlast, hrr, hc1, hcN⟩
      · exact hE e he2
    · rw [hsteps]
      refine List.chain'_cons'.mpr ⟨?_, hchain⟩
      intro e he
      obtain ⟨hm2, hd2⟩ := hhead e he
      constructor
      · rw [← hlast]
        exact hm2
      · rcases hd2 with ⟨hr2, hc2⟩ | ⟨hr2, hc2, ht2⟩
        · exact Or.inl ⟨hr2, hc2⟩
        · refine Or.inr ⟨hr2, hc2, by linarith⟩
    · intro e he
      rw [hsteps] at he
      injection he with he2
      subst he2
      exact ⟨hmin, hdisj⟩

theorem min_interval_pos : (0 : ℚ) ≤ Config.MIN_TRANSLATION_INTERVAL := by
  norm_num [Config.MIN_TRANSLATION_INTERVAL]

theorem steps_call_mono (L : List (RLState × ℚ)) (hch : List.Chain' StepRel L) :
    ∀ (a b : ℕ) (ha : a < L.length) (hb : b < L.length), a ≤ b →
      (L.get ⟨a, ha⟩).2 ≤ (L.get ⟨b, hb⟩).2 := by
  have key : ∀ (k a : ℕ) (h : a + k < L.length),
      (L.get ⟨a, by omega⟩).2 ≤ (L.get ⟨a + k, h⟩).2 := by
    intro k
    induction k with
    | zero => intro a h; exact le_refl _
    | succ k ih =>
      intro a h
      have h1 : a + k < L.length := by omega
      have hstep := List.chain'_iff_get.mp hch (a + k) (by omega)
      refine le_trans (ih a h1) ?_
      exact le_trans (le_add_of_nonneg_right min_interval_pos) hstep.1
  intro a b ha hb hab
  have h2 : a + (b - a) = b := by omega
  have hres := key (b - a) a (by omega)
  simp only [h2] at hres
  exact hres

theorem steps_reset_mono (L : List (RLState × ℚ)) (hch : List.Chain' StepRel L) :
    ∀ (a b : ℕ) (ha : a < L.length) (hb : b < L.length), a ≤ b →
      (L.get ⟨a, ha⟩).1.reset ≤ (L.get ⟨b, hb⟩).1.reset := by
  have key : ∀ (k a : ℕ) (h : a + k < L.length),
      (L.get ⟨a, by omega⟩).1.reset ≤ (L.get ⟨a + k, h⟩).1.reset := by
    intro k
    induction k with
    | zero => intro a h; exact le_refl _
    | succ k ih =>
      intro a h
      have h1 : a + k < L.length := by omega
      have hstep := List.chain'_iff_get.mp hch (a + k) (by omega)
      refine le_trans (ih a h1) ?_
      rcases hstep.2 with ⟨hr, _⟩ | ⟨hr, _, _⟩
      · exact le_of_eq hr.symm
      · exact le_trans (le_add_of_nonneg_right (by norm_num)) hr
  intro a b ha hb hab
  have h2 : a + (b - a) = b := by omega
  have hres := key (b - a) a (by omega)
  simp only [h2] at hres
  exact hres

theorem exists_jump (L : List (RLState × ℚ)) (hE : ∀ e ∈ L, EOK e)
    (hch : List.Chain' StepRel L) (i j : ℕ) (hj : j < L.length)
    (hij : i + Config.TRANSLATION_RATE_LIMIT ≤ j) :
    ∃ k, ∃ hk : k + 1 < L.length, i ≤ k ∧ k + 1 ≤ j ∧
      (L.get ⟨k, by omega⟩).1.reset + 60 ≤ (L.get ⟨k + 1, hk⟩).1.reset ∧
      (L.get ⟨k, by omega⟩).2 ≤ (L.get ⟨k + 1, hk⟩).1.reset := by
  by_contra hnot
  push_neg at hnot
  have hstepL : ∀ (k : ℕ) (hik : i ≤ k) (hkj : k + 1 ≤ j),
      (L.get ⟨k + 1, by omega⟩).1.reset = (L.get ⟨k, by omega⟩).1.reset ∧
      (L.get ⟨k + 1, by omega⟩).1.count = (L.get ⟨k, by omega⟩).1.count + 1 := by
    intro k hik hkj
    have hk1 : k + 1 < L.length := by omega
    have hstep := List.chain'_iff_get.mp hch k (by omega)
    rcases hstep.2 with ⟨hr, hc⟩ | ⟨hr, hc, hp⟩
    · exact ⟨hr, hc⟩
    · exact absurd hp (not_le.mpr (hnot k hk1 hik hkj hr))
  have grow : ∀ (m : ℕ) (hm : i + m ≤ j),
      (L.get ⟨i + m, by omega⟩).1.count = (L.get ⟨i, by omega⟩).1.count + m := by
    intro m
    induction m with
    | zero => intro _; rfl
    | succ m ih =>
      intro hm
      have h1 : i + m ≤ j := by omega
      have q1 : i + m + 1 < L.length := by omega
      have q2 : i + m < L.length := by omega
      have q3 : i < L.length := by omega
      have h2 : (L.get ⟨i + m + 1, q1⟩).1.count = (L.get ⟨i + m, q2⟩).1.count + 1 :=
        (hstepL (i + m) (by omega) (by omega)).2
      have h3 : (L.get ⟨i + m, q2⟩).1.count = (L.get ⟨i, q3⟩).1.count + m := ih h1
      show (L.get ⟨i + m + 1, q1⟩).1.count = (L.get ⟨i, q3⟩).1.count + (m + 1)
      omega
  have hlt0 : i < L.length := by omega
  have hlt : i + Config.TRANSLATION_RATE_LIMIT < L.length := by omega
  have hiN : (L.get ⟨i + Config.TRANSLATION_RATE_LIMIT, hlt⟩).1.count
      = (L.get ⟨i, hlt0⟩).1.count + Config.TRANSLATION_RATE_LIMIT :=
    grow Config.TRANSLATION_RATE_LIMIT hij
  have hEi : EOK (L.get ⟨i, hlt0⟩) := hE _ (List.get_mem _ _ _)
  have hEiN : EOK (L.get ⟨i + Config.TRANSLATION_RATE_LIMIT, hlt⟩) :=
    hE _ (List.get_mem _ _ _)
  have h1 := hEi.2.2.1
  have h2 := hEiN.2.2.2
  omega

theorem rl_span (L : List (RLState × ℚ)) (hE : ∀ e ∈ L, EOK e)
    (hch : List.Chain' StepRel L) (i j : ℕ) (hi : i < L.length) (hj : j < L.length)
    (hij : i + 2 * Config.TRANSLATION_RATE_LIMIT ≤ j) :
    (L.get ⟨i, hi⟩).2 + 60 ≤ (L.get ⟨j, hj⟩).2 := by
  obtain ⟨k1, hk1, hik1, hk1j, hjump1, hcall1⟩ :=
    exists_jump L hE hch i (i + Config.TRANSLATION_RATE_LIMIT) (by omega) (le_refl _)
  obtain ⟨k2, hk2, hik2, hk2j, hjump2, hcall2⟩ :=
    exists_jump L hE hch (i + Config.TRANSLATION_RATE_LIMIT) j hj (by omega)
  have p1 : k1 < L.length := by omega
  have p2 : k1 + 1 < L.length := hk1
  have p3 : k2 < L.length := by omega
  have p4 : k2 + 1 < L.length := hk2
  have c1 : (L.get ⟨k1, p1⟩).2 ≤ (L.get ⟨k1 + 1, p2⟩).1.reset := hcall1
  have j2 : (L.get ⟨k2, p3⟩).1.reset + 60 ≤ (L.get ⟨k2 + 1, p4⟩).1.reset := hjump2
  have m1 : (L.get ⟨i, hi⟩).2 ≤ (L.get ⟨k1, p1⟩).2 :=
    steps_call_mono L hch i k1 hi p1 hik1
  have m2 : (L.get ⟨k1 + 1, p2⟩).1.reset ≤ (L.get ⟨k2, p3⟩).1.reset :=
    steps_reset_mono L hch (k1 + 1) k2 p2 p3 (by omega)
  have m3 : (L.get ⟨k2 + 1, p4⟩).1.reset ≤ (L.get ⟨j, hj⟩).1.reset :=
    steps_reset_mono L hch (k2 + 1) j p4 hj (by omega)
  have hEj : EOK (L.get ⟨j, hj⟩) := hE _ (List.get_mem _ _ _)
  have hfinal : (L.get ⟨j, hj⟩).1.reset ≤ (L.get ⟨j, hj⟩).2 := hEj.2.1
  linarith

theorem rlTrace_eq_map (ds : List ℚ) : ∀ (s : RLState) (t : ℚ),
    rlTrace s t ds = (rlSteps s t ds).map Prod.snd := by
  induction ds with
  | nil => intro s t; rfl
  | cons d ds ih =>
    intro s t
    simp only [rlTrace, rlSteps, List.map_cons]
    rw [ih]

theorem map_snd_get (L : List (RLState × ℚ)) : ∀ (i : ℕ)
    (hi : i < (L.map Prod.snd).length) (hi' : i < L.length),
    (L.map Prod.snd).get ⟨i, hi⟩ = (L.get ⟨i, hi'⟩).2 := by
  induction L with
  | nil => intro i _ hi'; exact absurd hi' (Nat.not_lt_zero i)
  | cons x xs ih =>
    intro i hi hi'
    cases i with
    | zero => rfl
    | succ n =>
      exact ih n (by simp only [List.map_cons, List.length_cons] at hi ⊢; omega)
        (by simp only [List.length_cons] at hi'; omega)

/-- C2: amended throttle law. The spec's claim that any rolling 60-second
window holds at most N calls is false for the fixed-window counter the code
implements; what does hold, for any budget state whose window start is not
in the future, is (a) every two consecutive calls are at least
MIN_TRANSLATION_INTERVAL apart, and (b) any 2N+1 consecutive calls span
more than 60 seconds: the i-th and (i+2N)-th call times differ by at least
60, so a rolling 60-second window holds at most 2N calls. -/
theorem C2_throttle_amended (s : RLState) (t : ℚ) (ds : List ℚ)
    (hres : s.reset ≤ t) (hds : ∀ d ∈ ds, 0 ≤ d) :
    List.Chain' (fun a b => a + Config.MIN_TRANSLATION_INTERVAL ≤ b)
      (rlTrace s t ds) ∧
    ∀ (i j : ℕ) (hi : i < (rlTrace s t ds).length)
      (hj : j < (rlTrace s t ds).length),
      i + 2 * Config.TRANSLATION_RATE_LIMIT ≤ j →
      (rlTrace s t ds).get ⟨i, hi⟩ + 60 ≤ (rlTrace s t ds).get ⟨j, hj⟩ := by
  obtain ⟨hEOK, hchain, _⟩ := rlSteps_spec ds s t hres hds
  have hmap := rlTrace_eq_map ds s t
  constructor
  · rw [hmap, List.chain'_map]
    exact hchain.imp (fun a b hab => hab.1)
  · rw [hmap]
    intro i j hi hj hij
    have hi' : i < (rlSteps s t ds).length := by simpa using hi
    have hj' : j < (rlSteps s t ds).length := by simpa using hj
    rw [map_snd_get _ i hi hi', map_snd_get _ j hj hj']
    exact rl_span (rlSteps s t ds) hEOK hchain i j hi' hj' hij

/-- C2 witness: the amended throttle law applied to the fresh budget state
at time 0 with one follow-up call. -/
theorem C2_throttle_amended_witness :
    (RLState.mk 0 0 0).reset ≤ (0 : ℚ) ∧ (∀ d ∈ ([1] : List ℚ), 0 ≤ d) ∧
    List.Chain' (fun a b => a + Config.MIN_TRANSLATION_INTERVAL ≤ b)
      (rlTrace ⟨0, 0, 0⟩ 0 [1]) :=
  ⟨le_refl 0, by intro d hd; rw [List.mem_singleton] at hd; rw [hd]; norm_num,
    (C2_throttle_amended ⟨0, 0, 0⟩ 0 [1] (le_refl 0)
      (by intro d hd; rw [List.mem_singleton] at hd; rw [hd]; norm_num)).1⟩

/-- C2 counterexample to the rolling-window reading: starting from a fresh
budget state constructed at time 0 and first called at time 40, the rate
limiter as written admits 40 calls (twice TRANSLATION_RATE_LIMIT = 20) whose
times all lie inside the single rolling 60-second window [40, 100): twenty
calls at seconds 40-59 of the first fixed window, then twenty more at
seconds 61-80 after the counter resets. -/
theorem C2_counterexample :
    rlTrace ⟨0, 0, 0⟩ 40 (List.replicate 19 (1 : ℚ) ++ List.replicate 21 0)
      = ceCallTimes ∧
    ceCallTimes.length = 2 * Config.TRANSLATION_RATE_LIMIT ∧
    (∀ c ∈ ceCallTimes, 40 ≤ c ∧ c < 40 + 60) ∧
    Config.TRANSLATION_RATE_LIMIT < 2 * Config.TRANSLATION_RATE_LIMIT := by
  refine ⟨?_, by norm_num [ceCallTimes, Config.TRANSLATION_RATE_LIMIT], ?_,
    by norm_num [Config.TRANSLATION_RATE_LIMIT]⟩
  · norm_num [rlTrace, apply_rate_limit, Config.TRANSLATION_RATE_LIMIT,
      Config.MIN_TRANSLATION_INTERVAL, ceCallTimes]
  · intro c hc
    fin_cases hc <;> norm_num
